import Mathlib

/-!
# Verification of the medal-luau decompiler core

Shallow embedding of the decompiler's middle end (AST local handling,
table type inference, SSA destruction, CFG restructuring, and the
Lua 5.1 bytecode lifter) together with proofs settling the frozen
claims about the natural-language specification.

Machine integers (`usize`, `u8`, ...) are modelled as `Nat`; jump
offsets use truncated `Nat` subtraction which matches well-formed
bytecode where targets stay in range.  Rust panics (`unwrap`,
`todo!`, `unreachable!`) are modelled with `Option`: a panicking
execution is `none`.
-/

namespace Ast

/-- A local variable handle.  `RcLocal` in src/ast/src/local.rs is an
`Rc<Local>` compared by address (`ByAddress`); the address is modelled
as a natural identity. -/
structure RcLocal where
  id : Nat
  deriving DecidableEq, Repr

/-- Modelled from the spec: a statement, for the purposes of
`LocalRw`, is represented by its local occurrence slots, the view the
trait exposes through `values_read_mut` and `values_written_mut`
(src/ast/src/local.rs).  The statement enum itself is not under src/;
all non-local content of a statement is untouched by `replace_values`
and is therefore elided. -/
structure StmtLocals where
  reads : List RcLocal
  writes : List RcLocal
  deriving DecidableEq, Repr

/-- `LocalRw::replace_values_read` (src/ast/src/local.rs, lines 97-103):
every read slot equal to `old` is overwritten with `new`. -/
def replace_values_read (s : StmtLocals) (old new : RcLocal) : StmtLocals :=
  { s with reads := s.reads.map fun v => if v = old then new else v }

/-- `LocalRw::replace_values_written` (src/ast/src/local.rs, lines 105-111). -/
def replace_values_written (s : StmtLocals) (old new : RcLocal) : StmtLocals :=
  { s with writes := s.writes.map fun v => if v = old then new else v }

/-- `LocalRw::replace_values` (src/ast/src/local.rs, lines 113-116):
rewrite reads then writes. -/
def replace_values (s : StmtLocals) (old new : RcLocal) : StmtLocals :=
  replace_values_written (replace_values_read s old new) old new

/-- `replace_local(x, y)` as used by the spec: `replace_values` with
`old = x`, `new = y`. -/
def replace_local (s : StmtLocals) (x y : RcLocal) : StmtLocals :=
  replace_values s x y

end Ast

namespace Tbl

mutual
/-- The AST type lattice (`Type` in the ast crate).  Modelled from the
spec: the type-system source is not under src/; the spec gives a
lattice of primitive types, table, union and any.  The `Box<(Type,
Type)>` indexer is flattened into the two components `ikey`/`ival`,
and the nested collections are the first-order lists `TyFields` /
`TyList`. -/
inductive Ty where
  | nil
  | boolean
  | number
  | string
  | any
  | table (ikey ival : Ty) (fields : TyFields)
  | union (elems : TyList)
  deriving DecidableEq, Repr
/-- Field map of a table type (`BTreeMap<String, Type>`). -/
inductive TyFields where
  | fnil
  | fcons (name : String) (t : Ty) (rest : TyFields)
  deriving DecidableEq, Repr
/-- Element collection of a union type (`BTreeSet<Type>`). -/
inductive TyList where
  | lnil
  | lcons (t : Ty) (rest : TyList)
  deriving DecidableEq, Repr
end

/-- Pack a plain list of types into a `TyList`. -/
def TyList.ofList : List Ty → TyList
  | [] => .lnil
  | t :: r => .lcons t (TyList.ofList r)

/-- Pack a plain association list into a `TyFields`. -/
def TyFields.ofList : List (String × Ty) → TyFields
  | [] => .fnil
  | (n, t) :: r => .fcons n t (TyFields.ofList r)

/-- Membership of a type in a union's element collection. -/
def inUnion (t : Ty) : TyList → Bool
  | .lnil => false
  | .lcons a r => t == a || inUnion t r

/-- Modelled from the spec: `Type::is_subtype_of` (the type-system
source is not under src/).  `Any` is the top of the lattice, a member
of a union is a subtype of the union, and subtyping is otherwise
reflexive. -/
def Ty.is_subtype_of (t x : Ty) : Bool :=
  match x with
  | .any => true
  | .union l => inUnion t l
  | _ => t == x

/-- `BTreeSet` collect, modelled as a duplicate-free list.  The
B-tree's sorted iteration order is abstracted away; every theorem
below is stated up to membership. -/
def setOfList {α : Type} [DecidableEq α] : List α → List α
  | [] => []
  | a :: t =>
    let s := setOfList t
    if a ∈ s then s else a :: s

/-- One `BTreeMap` insertion: replace the value at an existing key,
append otherwise (iteration order abstracted). -/
def insertKV (m : List (String × Ty)) (k : String) (v : Ty) :
    List (String × Ty) :=
  if k ∈ m.map Prod.fst then
    m.map fun p => if p.1 = k then (k, v) else p
  else m ++ [(k, v)]

/-- `BTreeMap` collect from an association list (later entries win). -/
def mapOfList (l : List (String × Ty)) : List (String × Ty) :=
  l.foldl (fun m p => insertKV m p.1 p.2) []

/-- A table literal's entries, each paired with the type already
inferred for its value (`v.infer(system)` is the recursive call in
the source). -/
abbrev Entries := List (Option String × Ty)

/-- The `elements.len() > 1` collapse at the end of `Table::infer`
(src/ast/src/table.rs, lines 36-40): a multi-element set becomes a
union, a singleton is unwrapped, the empty set defaults to `Any`. -/
def unionFold (l : List Ty) : Ty :=
  if 1 < l.length then Ty.union (TyList.ofList l) else (l.head?.getD Ty.any)

/-- First stage of `Table::infer`: the `BTreeSet` of entries with
their inferred types (src/ast/src/table.rs, lines 15-19). -/
def inferElements (entries : Entries) : Entries :=
  setOfList entries

/-- Second stage: the subtype-elimination filter (src/ast/src/table.rs,
lines 20-26).  Note the inner `any` ranges over *all* elements, named
ones included (the closure's first component is shadowed and unused). -/
def inferKept (entries : Entries) : Entries :=
  (inferElements entries).filter fun ft =>
    ft.1.isSome || ! (inferElements entries).any fun fx =>
      (ft.2 != fx.2) && ft.2.is_subtype_of fx.2

/-- The positional half of the `partition_map` (src/ast/src/table.rs,
lines 27-31), collected into a `BTreeSet<Type>`. -/
def inferPos (entries : Entries) : List Ty :=
  setOfList (((inferKept entries).filter fun ft => ft.1.isNone).map Prod.snd)

/-- The named half of the `partition_map`, collected into a
`BTreeMap<String, Type>`. -/
def inferFields (entries : Entries) : List (String × Ty) :=
  mapOfList ((inferKept entries).filterMap fun ft => ft.1.map fun n => (n, ft.2))

/-- `Table::infer` (src/ast/src/table.rs, lines 13-45).  The
`partition_map` is rendered as the two filters; the `BTreeSet` /
`BTreeMap` collections are modelled by `setOfList` / `mapOfList`. -/
def Table.infer (entries : Entries) : Ty :=
  Ty.table Ty.any (unionFold (inferPos entries))
    (TyFields.ofList (inferFields entries))

/-- The inference rule as the claim states it: a positional entry is
eliminated only when its type is a strict subtype of another
*positional* entry's type (the source's elimination loop ranges over
all entries, named ones included). -/
def Table.infer_claim (entries : Entries) : Ty :=
  let elements := setOfList entries
  let kept := elements.filter fun ft =>
    ft.1.isSome || ! elements.any fun fx =>
      fx.1.isNone && (ft.2 != fx.2) && ft.2.is_subtype_of fx.2
  let positional := setOfList ((kept.filter fun ft => ft.1.isNone).map Prod.snd)
  let fields := mapOfList (kept.filterMap fun ft => ft.1.map fun n => (n, ft.2))
  Ty.table Ty.any (unionFold positional) (TyFields.ofList fields)

end Tbl

namespace Ir

/-- A value id (`ValueId` in the cfg-ir crate). -/
abbrev ValueId := Nat

/-- A straight-line (non-phi, non-terminator) instruction, represented
by its operand slots.  Modelled from the spec: the cfg-ir instruction
definitions are not under src/; `destruct` only touches operands, via
`values_read`/`values_written`. -/
structure Inner where
  reads : List ValueId
  writes : List ValueId
  deriving DecidableEq, Repr

/-- `Phi`: destination plus incoming values keyed by predecessor. -/
structure Phi where
  dest : ValueId
  incoming_values : List (Nat × ValueId)
  deriving DecidableEq, Repr

/-- A cfg-ir basic block: phi list plus instruction list (terminator
elided; `destruct` does not touch it). -/
structure Block where
  phi_instructions : List Phi
  instructions : List Inner
  deriving DecidableEq, Repr

/-- A cfg-ir function: blocks keyed by node id (`FxHashMap`). -/
structure Function where
  blocks : List (Nat × Block)
  deriving DecidableEq, Repr

/-- Substitute one value id. -/
def substVal (old new v : ValueId) : ValueId :=
  if v = old then new else v

/-- Replace every operand occurrence of `old` by `new` in one
instruction. -/
def Inner.replace_values (i : Inner) (old new : ValueId) : Inner :=
  { reads := i.reads.map (substVal old new),
    writes := i.writes.map (substVal old new) }

/-- In-place list update at an index. -/
def listModify {α : Type} : List α → Nat → (α → α) → List α
  | [], _, _ => []
  | a :: t, 0, g => g a :: t
  | a :: t, i + 1, g => a :: listModify t i g

/-- `Block::replace_values(index, old, new)`: rewrite the operands of
the instruction at `index`.  Modelled from the spec (block.rs is not
under src/): def-use locations index the straight-line instructions;
phi operands are left to the phi-removal loop itself. -/
def Block.replace_values (b : Block) (index : Nat) (old new : ValueId) :
    Block :=
  { b with
    instructions :=
      listModify b.instructions index fun i => i.replace_values old new }

/-- First-match association lookup (`HashMap::get`). -/
def lookupBlock : List (Nat × Block) → Nat → Option Block
  | [], _ => none
  | (k, b) :: t, n => if k = n then some b else lookupBlock t n

/-- First-match association update (`HashMap::get_mut`). -/
def modifyFirst : List (Nat × Block) → Nat → (Block → Block) →
    List (Nat × Block)
  | [], _, _ => []
  | (k, b) :: t, n, g =>
    if k = n then (k, g b) :: t else (k, b) :: modifyFirst t n g

/-- `Function::block`. -/
def Function.block (f : Function) (n : Nat) : Option Block :=
  lookupBlock f.blocks n

/-- `Function::block_mut` followed by a mutation. -/
def Function.modifyBlock (f : Function) (n : Nat) (g : Block → Block) :
    Function :=
  { blocks := modifyFirst f.blocks n g }

/-- Modelled from the spec: `DefUse` (def_use.rs is not under src/)
reports, for a value, every (node, index-within-block) location at
which it is read or written. -/
def defUseLocations (f : Function) (v : ValueId) : List (Nat × Nat) :=
  f.blocks.flatMap fun nb =>
    ((List.range nb.2.instructions.length).filter fun i =>
      match nb.2.instructions.get? i with
      | some ins => v ∈ ins.reads ∨ v ∈ ins.writes
      | none => False).map fun i => (nb.1, i)

/-- The inner rewriting loop of `destruct` (src/cfg-ir/src/ssa/destruct.rs,
lines 20-39): for one incoming value, rewrite every use location to the
phi destination.  The incremental `def_use.update_block` bookkeeping is
subsumed by recomputing the locations from the current function. -/
def replaceUseLocations (f : Function) (v dest : ValueId) : Function :=
  (defUseLocations f v).foldl
    (fun f loc => f.modifyBlock loc.1 fun b => b.replace_values loc.2 v dest)
    f

/-- Processing of one phi (one iteration of the `phi_index` loop in
src/cfg-ir/src/ssa/destruct.rs, lines 17-47): rewrite the uses of every
incoming value to the destination, then remove the phi. -/
def processPhi (f : Function) (node phi_index : Nat) : Function :=
  match f.block node with
  | none => f
  | some b =>
    match b.phi_instructions.get? phi_index with
    | none => f
    | some phi =>
      (((phi.incoming_values.map Prod.snd).foldl
        (fun f v => replaceUseLocations f v phi.dest) f).modifyBlock node)
        fun b =>
          { b with phi_instructions := b.phi_instructions.eraseIdx phi_index }

/-- The `for phi_index in (0..phis).rev()` loop. -/
def processNode (f : Function) (node : Nat) : Nat → Function
  | 0 => f
  | k + 1 => processNode (processPhi f node k) node k

/-- `destruct` (src/cfg-ir/src/ssa/destruct.rs, lines 5-49): snapshot
the phi count of every block, then run the removal loop per block. -/
def destruct (f : Function) : Function :=
  (f.blocks.map fun nb => (nb.1, nb.2.phi_instructions.length)).foldl
    (fun f p => processNode f p.1 p.2) f

/-- The phi list of the block at node `n`. -/
def phisAt (f : Function) (n : Nat) : Option (List Phi) :=
  (f.block n).map (·.phi_instructions)

/-- The node keys of a function. -/
def keysOf (f : Function) : List Nat :=
  f.blocks.map Prod.fst

end Ir

namespace Rst

/-- Reduced statement model.  Modelled from the spec: the ast
statement enum is not under src/; the structurer needs to recognize
comments (`Statement::as_comment`), to build folded conditionals and
loops, and otherwise treats statements as opaque payloads (`other`). -/
inductive AStmt where
  | comment (text : String)
  | ifStmt (then_b else_b : List AStmt)
  | whileStmt (body : List AStmt)
  | other (tag : Nat)

/-- `ast::Block`: an ordered statement sequence. -/
abbrev ABlock := List AStmt

/-- `Terminator` of a cfg basic block (jump or conditional; the return
and for-loop terminators leave the node successor-free or are not
reached by the structurer paths modelled here). -/
inductive Terminator where
  | jump (target : Nat)
  | conditional (then_t else_t : Nat)
  deriving DecidableEq, Repr

/-- `cfg::block::BasicBlock`: statement block plus terminator. -/
structure BasicBlock where
  ast : ABlock
  terminator : Option Terminator

/-- Modelled from the spec (section 4.2; cfg function.rs is not under
src/): a function owns a stable-index graph of basic blocks; edges are
implicit in terminators and kept in sync with them. -/
structure RFunction where
  blocks : List (Nat × BasicBlock)
  entry : Option Nat

/-- Association-list lookup (stable-graph node access). -/
def lookupR : List (Nat × BasicBlock) → Nat → Option BasicBlock
  | [], _ => none
  | (k, b) :: t, n => if k = n then some b else lookupR t n

/-- Association-list first-match update. -/
def modifyR : List (Nat × BasicBlock) → Nat → (BasicBlock → BasicBlock) →
    List (Nat × BasicBlock)
  | [], _, _ => []
  | (k, b) :: t, n, g =>
    if k = n then (k, g b) :: t else (k, b) :: modifyR t n g

/-- Association-list removal. -/
def removeR : List (Nat × BasicBlock) → Nat → List (Nat × BasicBlock)
  | [], _ => []
  | (k, b) :: t, n => if k = n then t else (k, b) :: removeR t n

/-- `Function::block`. -/
def RFunction.block (f : RFunction) (n : Nat) : Option BasicBlock :=
  lookupR f.blocks n

/-- Targets named by a terminator. -/
def termTargets : Option Terminator → List Nat
  | none => []
  | some (.jump t) => [t]
  | some (.conditional a b) => [a, b]

/-- `Function::successor_blocks`: graph successors; an edge exists only
while its target node is alive (petgraph removes incident edges with
the node). -/
def RFunction.successor_blocks (f : RFunction) (n : Nat) : List Nat :=
  match f.block n with
  | none => []
  | some b => (termTargets b.terminator).filter fun t => (f.block t).isSome

/-- `Function::predecessor_blocks`. -/
def RFunction.predecessor_blocks (f : RFunction) (n : Nat) : List Nat :=
  if (f.block n).isSome then
    (f.blocks.filter fun p => n ∈ termTargets p.2.terminator).map Prod.fst
  else []

/-- `Function::remove_block`: returns the removed block. -/
def RFunction.remove_block (f : RFunction) (n : Nat) :
    Option BasicBlock × RFunction :=
  (f.block n, { f with blocks := removeR f.blocks n })

/-- `GraphStructurer::block_is_no_op` (src/restructure/src/lib.rs,
lines 53-59): every statement is a comment. -/
def block_is_no_op (b : ABlock) : Bool :=
  b.all fun s => match s with
    | .comment _ => true
    | _ => false

/-- Modify a block in place. -/
def RFunction.withBlock (f : RFunction) (n : Nat)
    (g : BasicBlock → BasicBlock) : RFunction :=
  { f with blocks := modifyR f.blocks n g }

/-- Replace a terminator target. -/
def redirect (t : Option Terminator) (from_t to_t : Nat) : Option Terminator :=
  match t with
  | none => none
  | some (.jump a) => some (.jump (if a = from_t then to_t else a))
  | some (.conditional a b) =>
    some (.conditional (if a = from_t then to_t else a)
      (if b = from_t then to_t else b))

/-- Modelled from the spec (section 4.5, one-successor rule; jump.rs is
not under src/): splice a single-predecessor successor into `n`, or
bypass a no-op pure-jump successor by redirecting `n`'s terminator. -/
def match_jump (f : RFunction) (n s : Nat) : RFunction × Bool :=
  if s = n then (f, false)
  else if f.predecessor_blocks s = [n] then
    match f.block n, f.block s with
    | some bn, some bs =>
      (((f.withBlock n fun _ =>
          { ast := bn.ast ++ bs.ast, terminator := bs.terminator }).remove_block
          s).2, true)
    | _, _ => (f, false)
  else
    match f.block s with
    | some bs =>
      match bs.terminator with
      | some (.jump t) =>
        if block_is_no_op bs.ast then
          (f.withBlock n fun bn =>
            { bn with terminator := redirect bn.terminator s t }, true)
        else (f, false)
      | _ => (f, false)
    | none => (f, false)

/-- Modelled from the spec (section 4.5, simple if-then-else;
conditional.rs is not under src/): two-armed diamond or one-armed
conditional, folding the branch blocks into an `If` statement. -/
def match_conditional (f : RFunction) (n t e : Nat) : RFunction × Bool :=
  if t = n ∨ e = n ∨ t = e then (f, false)
  else
    match f.block t, f.block e with
    | some bt, some be =>
      if f.predecessor_blocks t = [n] ∧ f.predecessor_blocks e = [n] ∧
          f.successor_blocks t = f.successor_blocks e ∧
          (f.successor_blocks t).length = 1 then
        match f.successor_blocks t with
        | [m] =>
          ((((f.withBlock n fun bn =>
              { ast := bn.ast ++ [.ifStmt bt.ast be.ast],
                terminator := some (.jump m) }).remove_block t).2.remove_block
              e).2, true)
        | _ => (f, false)
      else if f.predecessor_blocks t = [n] ∧ f.successor_blocks t = [e] then
        (((f.withBlock n fun bn =>
            { ast := bn.ast ++ [.ifStmt bt.ast []],
              terminator := some (.jump e) }).remove_block t).2, true)
      else if f.predecessor_blocks e = [n] ∧ f.successor_blocks e = [t] then
        (((f.withBlock n fun bn =>
            { ast := bn.ast ++ [.ifStmt [] be.ast],
              terminator := some (.jump t) }).remove_block e).2, true)
      else (f, false)
    | _, _ => (f, false)

/-- Modelled from the spec (section 4.5, short-circuit compound
conditional; compound.rs is not under src/): one branch is itself a
two-successor no-op block with `n` as only predecessor, forwarding to
the other branch; its condition is folded into `n` and the block
removed.  The condition expressions themselves live in the elided
statement payloads, so only the control-flow rewrite is modelled. -/
def compound_inner (f : RFunction) (n inner other : Nat) :
    Option (RFunction × Bool) :=
  match f.block inner with
  | some bi =>
    match bi.terminator with
    | some (.conditional a b) =>
      if inner ≠ n ∧ inner ≠ other ∧ f.predecessor_blocks inner = [n] ∧
          block_is_no_op bi.ast = true ∧ (a = other ∨ b = other) then
        some (((f.withBlock n fun bn =>
          { bn with
            terminator :=
              some (.conditional (if b = other then a else other)
                (if b = other then other else b)) }).remove_block inner).2,
          true)
      else none
    | _ => none
  | none => none

/-- Modelled from the spec (section 4.5, short-circuit compound
conditional; compound.rs is not under src/): one branch is itself a
two-successor no-op block with `n` as only predecessor, forwarding to
the other branch; its condition is folded into `n` and the block
removed.  The condition expressions themselves live in the elided
statement payloads, so only the control-flow rewrite is modelled. -/
def match_compound_conditional (f : RFunction) (n t e : Nat) :
    RFunction × Bool :=
  match compound_inner f n t e with
  | some r => r
  | none =>
    match compound_inner f n e t with
    | some r => r
    | none => (f, false)

/-- Modelled from the spec (section 4.5, loop rule; loop.rs is not
under src/): minimal while-loop collapse of a conditional self-loop. -/
def match_loop (f : RFunction) (n t e : Nat) : RFunction × Bool :=
  if t = n then
    (f.withBlock n fun bn =>
      { ast := [.whileStmt bn.ast], terminator := some (.jump e) }, true)
  else if e = n then
    (f.withBlock n fun bn =>
      { ast := [.whileStmt bn.ast], terminator := some (.jump t) }, true)
  else (f, false)

/-- `GraphStructurer::try_match_pattern` (src/restructure/src/lib.rs,
lines 61-95): dispatch on the out-degree.  With two successors the
then/else nodes are read from the conditional terminator
(`as_conditional().unwrap()`, `none` when it is not a conditional) and
only `match_compound_conditional` is invoked — the calls to the simple
conditional and loop reductions are commented out in the source.  More
than two successors is `unreachable!()`. -/
def try_match_pattern (f : RFunction) (node : Nat) :
    Option (RFunction × Bool) :=
  match f.successor_blocks node with
  | [] => some (f, false)
  | [s] => some (match_jump f node s)
  | [_, _] =>
    match (f.block node).bind (·.terminator) with
    | some (.conditional then_node else_node) =>
      some (match_compound_conditional f node then_node else_node)
    | _ => none
  | _ => none

/-- The dispatch the claim describes (spec section 4.5): with two
successors, try the compound conditional first, then the simple
if-then-else, then the while/repeat loop when one outgoing edge is a
back-edge. -/
def try_match_pattern_claim (f : RFunction) (node : Nat)
    (isBE : Nat → Nat → Bool) : Option (RFunction × Bool) :=
  match f.successor_blocks node with
  | [] => some (f, false)
  | [s] => some (match_jump f node s)
  | [_, _] =>
    match (f.block node).bind (·.terminator) with
    | some (.conditional then_node else_node) =>
      match match_compound_conditional f node then_node else_node with
      | (f1, true) => some (f1, true)
      | (f1, false) =>
        match match_conditional f1 node then_node else_node with
        | (f2, true) => some (f2, true)
        | (f2, false) =>
          if isBE node then_node || isBE node else_node then
            some (match_loop f2 node then_node else_node)
          else some (f2, false)
    | _ => none
  | _ => none

/-- `back_edges` (src/restructure/src/lib.rs, lines 28-41): the
function iterates over the graph's nodes, but the body that would
collect the dominating successors is commented out in the source, so
the returned list is always empty.  The `simple_fast` dominator
computation the source performs is discarded unused and is elided
here. -/
def back_edges (graph : RFunction) (root : Nat) : List (Nat × Nat) :=
  (graph.blocks.map Prod.fst).foldl (fun acc _node => acc) []

/-- One breadth step of reachability, avoiding an optional node. -/
def expandOnce (f : RFunction) (avoid : Option Nat) (seen : List Nat) :
    List Nat :=
  seen ++ ((seen.flatMap fun n => f.successor_blocks n).filter fun m =>
    m ∉ seen ∧ some m ≠ avoid)

/-- Nodes reachable from `start` without passing through `avoid`. -/
def reachAvoid (f : RFunction) (start : Nat) (avoid : Option Nat) :
    List Nat :=
  if some start = avoid ∨ (f.block start).isNone then []
  else (expandOnce f avoid)^[f.blocks.length + 1] [start]

/-- Modelled from the spec glossary: `v` dominates `u` when every path
from the root to `u` passes through `v` — the relation induced by the
immediate dominators that `simple_fast` computes from the entry. -/
def dominates (f : RFunction) (root v u : Nat) : Bool :=
  (reachAvoid f root none).contains u &&
    (u == v || ! (reachAvoid f root (some v)).contains u)

/-- The claim's back-edge condition for an edge `u → v` of the graph:
the edge exists and `v` dominates `u`. -/
def isBackEdge (f : RFunction) (root u v : Nat) : Bool :=
  (f.successor_blocks u).contains v && dominates f root v u

/-- The structurer state (src/restructure/src/lib.rs, lines 15-19). -/
structure GraphStructurer where
  function : RFunction
  root : Nat
  back_edges : List (Nat × Nat)

/-- `GraphStructurer::new` (src/restructure/src/lib.rs, lines 22-51):
compute `back_edges` over the cloned graph with the passed root, then
rebind the root to `function.entry().unwrap()` (the unused `blocks`
parameter is elided). -/
def GraphStructurer.new (function : RFunction) (graph : RFunction)
    (root : Nat) : Option GraphStructurer :=
  match function.entry with
  | none => none
  | some r => some ⟨function, r, Rst.back_edges graph root⟩

/-- Depth-first post-order traversal (petgraph `DfsPostOrder`), with
fuel bounding the recursion depth. -/
def postorderAux (f : RFunction) : Nat → Nat → List Nat → List Nat × List Nat
  | 0, _, visited => (visited, [])
  | fuel + 1, n, visited =>
    if n ∈ visited then (visited, [])
    else
      let res := (f.successor_blocks n).foldl
        (fun (acc : List Nat × List Nat) s =>
          let r := postorderAux f fuel s acc.1
          (r.1, acc.2 ++ r.2)) (n :: visited, [])
      (res.1, res.2 ++ [n])

/-- DFS post-order from a root. -/
def postorder (f : RFunction) (root : Nat) : List Nat :=
  (postorderAux f (f.blocks.length + 1) root []).2

/-- `GraphStructurer::match_blocks` (src/restructure/src/lib.rs, lines
97-129): collect the DFS-reachable set from the root, remove the
unreachable nodes, then attempt a pattern match at every node in DFS
post-order, OR-ing the changed flags.  The source drives petgraph's
incremental `DfsPostOrder` walker while mutating the graph; this is
modelled by a traversal precomputed after the removals (the removed
nodes are unreachable and are visited by neither). -/
def match_blocks (s : GraphStructurer) : Option (GraphStructurer × Bool) :=
  let dfs := reachAvoid s.function s.root none
  let f := (s.function.blocks.map Prod.fst).foldl
    (fun f n => if n ∈ dfs then f else (f.remove_block n).2) s.function
  let order := postorder f s.root
  (order.foldlM (fun (p : RFunction × Bool) node =>
      (try_match_pattern p.1 node).map fun q => (q.1, p.2 || q.2))
    (f, false)).map fun p => ({ s with function := p.1 }, p.2)

/-- The `while self.match_blocks() {}` loop of `collapse`, with
explicit fuel; `none` models exhausting the fuel or an inner panic. -/
def collapseAux : Nat → GraphStructurer → Option GraphStructurer
  | 0, _ => none
  | fuel + 1, s =>
    match match_blocks s with
    | none => none
    | some (s', true) => collapseAux fuel s'
    | some (s', false) => some s'

/-- `GraphStructurer::collapse` (src/restructure/src/lib.rs, lines
131-138).  The companion flag records whether the failed-to-collapse
diagnostic is printed to stdout (node count different from one); the
printed text never reaches the returned output. -/
def collapse (s : GraphStructurer) (fuel : Nat) :
    Option (GraphStructurer × Bool) :=
  (collapseAux fuel s).map fun s' =>
    (s', s'.function.blocks.length != 1)

/-- `GraphStructurer::structure` (src/restructure/src/lib.rs, lines
140-143): collapse, then return the ast of the removed root block;
whatever other blocks remain are dropped with the structurer.  The
flag forwards the collapse diagnostic. -/
def structureFn (s : GraphStructurer) (fuel : Nat) :
    Option (ABlock × Bool) :=
  match collapse s fuel with
  | none => none
  | some (s', diag) =>
    match (s'.function.remove_block s'.root).1 with
    | none => none
    | some b => some (b.ast, diag)

/-- `restructure::lift` (src/restructure/src/lib.rs, lines 146-159):
clone the graph, read the entry as root, build the structurer and
structure. -/
def lift (function : RFunction) (fuel : Nat) : Option (ABlock × Bool) :=
  match function.entry with
  | none => none
  | some root =>
    match GraphStructurer.new function function root with
    | none => none
    | some s => structureFn s fuel

mutual
/-- Opaque-statement tags occurring in a statement (to witness which
source statements survive into an output block). -/
def stmtTags : AStmt → List Nat
  | .comment _ => []
  | .ifStmt a b => listTags a ++ listTags b
  | .whileStmt a => listTags a
  | .other tag => [tag]
/-- Opaque-statement tags occurring in a block. -/
def listTags : List AStmt → List Nat
  | [] => []
  | s :: r => stmtTags s ++ listTags r
end

mutual
/-- Whether a statement contains any comment statement. -/
def stmtHasComment : AStmt → Bool
  | .comment _ => true
  | .ifStmt a b => listHasComment a || listHasComment b
  | .whileStmt a => listHasComment a
  | .other _ => false
/-- Whether a block contains any comment statement. -/
def listHasComment : List AStmt → Bool
  | [] => false
  | s :: r => stmtHasComment s || listHasComment r
end

/-- A diamond CFG: entry 0 branches to 1 and 2, which join at 3 — the
shape the simple if-then-else reduction matches. -/
def fD : RFunction :=
  ⟨[(0, ⟨[AStmt.other 0], some (.conditional 1 2)⟩),
    (1, ⟨[AStmt.other 1], some (.jump 3)⟩),
    (2, ⟨[AStmt.other 2], some (.jump 3)⟩),
    (3, ⟨[AStmt.other 3], none⟩)], some 0⟩

/-- A two-node cycle: 0 → 1 → 0; the edge 1 → 0 is a back-edge (0
dominates 1). -/
def g2 : RFunction :=
  ⟨[(0, ⟨[], some (.jump 1)⟩), (1, ⟨[], some (.jump 0)⟩)], some 0⟩

/-- An irreducible-for-this-structurer CFG: 0 branches to 1 and 2,
which jump to each other; no modelled rule applies, so `match_blocks`
reaches a fixpoint with three nodes. -/
def fc : RFunction :=
  ⟨[(0, ⟨[AStmt.other 0], some (.conditional 1 2)⟩),
    (1, ⟨[AStmt.other 1], some (.jump 2)⟩),
    (2, ⟨[AStmt.other 2], some (.jump 1)⟩)], some 0⟩

/-- The structurer state `lift` builds for `fc`. -/
def sc : GraphStructurer := ⟨fc, 0, []⟩

end Rst

namespace L51

/-- Constant-pool values (`lua51_deserializer::Value`, identical to the
ast `Literal` after conversion).  The `f64` payload is abstracted to
its bit pattern. -/
inductive Literal where
  | nil
  | boolean (b : Bool)
  | number (bits : Nat)
  | string (s : String)
  deriving DecidableEq, Repr

/-- The subset of `lua51_deserializer::Instruction` exercised by the
claims.  `Equal`, `LessThan`, `LessThanOrEqual` and
`IterateGenericForLoop` share `Test`'s block-discovery and terminator
behaviour and are represented by `test`; the remaining opcodes fall to
the same catch-all arms as in the source. -/
inductive Instruction where
  | move (destination source : Nat)
  | loadConstant (destination source : Nat)
  | loadBoolean (destination : Nat) (value skip_next : Bool)
  | test (value : Nat) (comparison_value : Bool)
  | jump (step : Nat)
  | prepareNumericForLoop (step : Nat)
  | iterateNumericForLoop (step : Nat)
  | ret (values : List Nat) (variadic : Bool)
  | getUpvalue (destination upvalue : Nat)
  | setList (table number_of_elements block_number : Nat)
  deriving DecidableEq, Repr

/-- The decoded function record handed to the lifter. -/
structure BytecodeFunction where
  code : List Instruction
  constants : List Literal
  upvalues : List String
  maximum_stack_size : Nat
  number_of_parameters : Nat
  deriving DecidableEq, Repr

/-- `RcLocal`: `id` models the `Rc` address compared by `ByAddress`;
`name` is the wrapped `Local`'s optional name. -/
structure LLocal where
  id : Nat
  name : Option String
  deriving DecidableEq, Repr

/-- The rvalue forms produced by the modelled lifter arms. -/
inductive LRValue where
  | local (l : LLocal)
  | literal (lit : Literal)
  | unaryNot (v : LRValue)
  deriving DecidableEq, Repr

/-- The lvalue forms produced by the modelled lifter arms. -/
inductive LValueL where
  | local (l : LLocal)
  deriving DecidableEq, Repr

/-- The statement forms produced by the modelled lifter arms. -/
inductive Stmt where
  | assign (left : List LValueL) (right : List LRValue)
  | ifStmt (condition : LRValue)
  | ret (values : List LRValue)
  | comment (text : String)
  deriving DecidableEq, Repr

/-- Block terminators (`cfg::block::Terminator`). -/
inductive CTerminator where
  | jump (target : Nat)
  | conditional (then_t else_t : Nat)
  deriving DecidableEq, Repr

/-- A cfg basic block. -/
structure CBlock where
  ast : List Stmt
  terminator : Option CTerminator
  deriving DecidableEq, Repr

/-- Modelled from the spec (section 4.2; the cfg function source is
not under src/): the function owns a petgraph `StableDiGraph` of
blocks (`blocks` kept sorted by node index, matching index-order
iteration; `free` is the stable graph's freelist of removed indices,
reused last-removed-first), the entry, the parameter list, and the
local allocator whose state is the next fresh identity `counter`.
`Rc::new` allocations are drawn from the same counter, which soundly
models that every new allocation is distinct from every live local. -/
structure CFunction where
  next_id : Nat
  free : List Nat
  blocks : List (Nat × CBlock)
  entry : Option Nat
  parameters : List LLocal
  counter : Nat
  deriving DecidableEq, Repr

/-- `Function::default()`. -/
def CFunction.default0 : CFunction := ⟨0, [], [], none, [], 0⟩

/-- Association-list lookup. -/
def lookupA {α : Type} : List (Nat × α) → Nat → Option α
  | [], _ => none
  | (k, v) :: t, n => if k = n then some v else lookupA t n

/-- Association-list insert (replace an existing key, append new). -/
def assocInsert {α : Type} : List (Nat × α) → Nat → α → List (Nat × α)
  | [], k, v => [(k, v)]
  | (k', v') :: t, k, v =>
    if k' = k then (k, v) :: t else (k', v') :: assocInsert t k v

/-- Association-list removal of the first match. -/
def removeA {α : Type} : List (Nat × α) → Nat → List (Nat × α)
  | [], _ => []
  | (k', v') :: t, k => if k' = k then t else (k', v') :: removeA t k

/-- Association-list first-match update. -/
def modifyA {α : Type} : List (Nat × α) → Nat → (α → α) → List (Nat × α)
  | [], _, _ => []
  | (k', v') :: t, k, g =>
    if k' = k then (k', g v') :: t else (k', v') :: modifyA t k g

/-- Insert a block keeping the list sorted by node index. -/
def insertSortedBlock (n : Nat) (b : CBlock) :
    List (Nat × CBlock) → List (Nat × CBlock)
  | [] => [(n, b)]
  | (k, v) :: t =>
    if n ≤ k then (n, b) :: (k, v) :: t
    else (k, v) :: insertSortedBlock n b t

/-- `Function::new_block`: a fresh (or freelist-reused) node index,
with an empty block. -/
def CFunction.new_block (f : CFunction) : Nat × CFunction :=
  match f.free with
  | i :: rest =>
    (i, { f with free := rest, blocks := insertSortedBlock i ⟨[], none⟩ f.blocks })
  | [] =>
    (f.next_id,
      { f with
        next_id := f.next_id + 1
        blocks := f.blocks ++ [(f.next_id, ⟨[], none⟩)] })

/-- `Function::block`. -/
def CFunction.block (f : CFunction) (n : Nat) : Option CBlock :=
  lookupA f.blocks n

/-- `Function::remove_block`: drop the node, freeing its index. -/
def CFunction.remove_block (f : CFunction) (n : Nat) : CFunction :=
  if (f.block n).isSome then
    { f with blocks := removeA f.blocks n, free := n :: f.free }
  else f

/-- `Function::set_block_terminator`. -/
def CFunction.set_block_terminator (f : CFunction) (n : Nat)
    (t : Option CTerminator) : CFunction :=
  { f with blocks := modifyA f.blocks n fun b => { b with terminator := t } }

/-- Append statements to a block's ast (`block_mut(n).ast.extend`). -/
def CFunction.extend_block (f : CFunction) (n : Nat)
    (stmts : List Stmt) : CFunction :=
  { f with blocks := modifyA f.blocks n fun b => { b with ast := b.ast ++ stmts } }

/-- `Function::set_entry`. -/
def CFunction.set_entry (f : CFunction) (n : Nat) : CFunction :=
  { f with entry := some n }

/-- Replace the allocator state. -/
def CFunction.withCounter (f : CFunction) (c : Nat) : CFunction :=
  { f with counter := c }

/-- `local_allocator.allocate()`: a fresh unnamed local. -/
def CFunction.allocate (f : CFunction) : LLocal × CFunction :=
  (⟨f.counter, none⟩, { f with counter := f.counter + 1 })

/-- Targets named by a terminator. -/
def termTargetsC : Option CTerminator → List Nat
  | none => []
  | some (.jump t) => [t]
  | some (.conditional a b) => [a, b]

/-- `Function::successor_blocks`: live targets of the terminator. -/
def CFunction.successor_blocks (f : CFunction) (n : Nat) : List Nat :=
  match f.block n with
  | none => []
  | some b => (termTargetsC b.terminator).filter fun t => (f.block t).isSome

/-- `Function::predecessor_blocks`: live blocks whose terminator
targets `n`. -/
def CFunction.predecessor_blocks (f : CFunction) (n : Nat) : List Nat :=
  (f.blocks.filter fun p => n ∈ termTargetsC p.2.terminator).map Prod.fst

/-- The lifter context (src/lua51-lifter/src/lifter.rs, lines 22-29).
The `constants` memoization cache is elided: the cached conversion is
pure, so reading the pool directly is observationally identical. -/
structure LifterState where
  function : CFunction
  nodes : List (Nat × Nat)
  blocks_to_skip : List Nat
  locals : List (Nat × LLocal)
  deriving DecidableEq, Repr

/-- `nodes.entry(k).or_insert_with(|| function.new_block())`. -/
def orInsertNew (st : LifterState) (k : Nat) : Nat × LifterState :=
  match lookupA st.nodes k with
  | some v => (v, st)
  | none =>
    let r := st.function.new_block
    (r.1, { st with
      function := r.2
      nodes := assocInsert st.nodes k r.1 })

/-- One instruction of `create_block_map`
(src/lua51-lifter/src/lifter.rs, lines 42-102).  `SetList` with
`block_number: 0` hits the `todo!()`, which carries no information
about the offending offset; the biased jump target is
`insn_index + step - 131070`. -/
def create_block_map_step (st : LifterState) (insn_index : Nat)
    (insn : Instruction) : Option LifterState :=
  match insn with
  | .setList _ _ 0 => none
  | .loadBoolean _ _ true => some (orInsertNew st (insn_index + 2)).2
  | .test _ _ =>
    some (orInsertNew (orInsertNew st (insn_index + 1)).2 (insn_index + 2)).2
  | .jump step =>
    match orInsertNew st (insn_index + step - 131070) with
    | (dest_block, st1) =>
      match (orInsertNew st1 (insn_index + 1)).2 with
      | st2 =>
        match lookupA st2.nodes insn_index with
        | some jmp_block =>
          some { st2 with
            function := st2.function.remove_block jmp_block,
            nodes := assocInsert st2.nodes insn_index dest_block,
            blocks_to_skip := insn_index :: st2.blocks_to_skip }
        | none => some st2
  | .iterateNumericForLoop step | .prepareNumericForLoop step =>
    some (orInsertNew (orInsertNew st (insn_index + step - 131070)).2
      (insn_index + 1)).2
  | .ret _ _ => some (orInsertNew st (insn_index + 1)).2
  | _ => some st

/-- The enumerated scan of `create_block_map`. -/
def cbmGo (st : LifterState) : Nat → List Instruction → Option LifterState
  | _, [] => some st
  | i, insn :: rest =>
    match create_block_map_step st i insn with
    | none => none
    | some st' => cbmGo st' (i + 1) rest

/-- `create_block_map` (src/lua51-lifter/src/lifter.rs, lines 42-102):
seed the block at offset 0, then scan the instruction stream. -/
def create_block_map (bc : BytecodeFunction) (st : LifterState) :
    Option LifterState :=
  cbmGo { st with
    function := st.function.new_block.2
    nodes := assocInsert st.nodes 0 st.function.new_block.1 } 0 bc.code

/-- `allocate_locals` (src/lua51-lifter/src/lifter.rs, lines 32-40):
one fresh local per register; the first `number_of_parameters` become
the parameter list.  `alloc_step` is the loop body. -/
def alloc_step (bc : BytecodeFunction) (st : LifterState) (i : Nat) :
    LifterState :=
  let r := st.function.allocate
  let f := if i < bc.number_of_parameters then
      { r.2 with parameters := r.2.parameters ++ [r.1] }
    else r.2
  { st with function := f, locals := assocInsert st.locals i r.1 }

def allocate_locals (bc : BytecodeFunction) (st : LifterState) : LifterState :=
  (List.range bc.maximum_stack_size).foldl (alloc_step bc) st

/-- Insertion into a sorted list of naturals. -/
def insertSortedNat (x : Nat) : List Nat → List Nat
  | [] => [x]
  | a :: t => if x ≤ a then x :: a :: t else a :: insertSortedNat x t

/-- `sort_unstable` over the node keys. -/
def sortNat (l : List Nat) : List Nat := l.foldr insertSortedNat []

/-- `code_ranges` (src/lua51-lifter/src/lifter.rs, lines 104-118):
sorted block starts zipped with the next start minus one (the final
range ends at the last instruction), skip blocks filtered out. -/
def code_ranges (bc : BytecodeFunction) (st : LifterState) :
    List (Nat × Nat) :=
  let keys := sortNat (st.nodes.map Prod.fst)
  let ends := (keys.drop 1).map (fun s => s - 1) ++ [bc.code.length - 1]
  (keys.zip ends).filter fun p => p.1 ∉ st.blocks_to_skip

/-- `constant()` (src/lua51-lifter/src/lifter.rs, lines 120-131):
pool lookup, panicking (`none`) when out of range. -/
def constantOf (bc : BytecodeFunction) (k : Nat) : Option Literal :=
  bc.constants.get? k

/-- Resolve a list of registers through the locals map
(`values.into_iter().map(|v| self.locals[v])`), panicking (`none`) on
a missing register. -/
def lookupAll (locals : List (Nat × LLocal)) : List Nat → Option (List LLocal)
  | [] => some []
  | v :: t =>
    match lookupA locals v, lookupAll locals t with
    | some l, some ls => some (l :: ls)
    | _, _ => none

/-- Debug representation used by the catch-all `Comment` arm. -/
def debugRepr : Instruction → String
  | .prepareNumericForLoop _ => "PrepareNumericForLoop"
  | .iterateNumericForLoop _ => "IterateNumericForLoop"
  | _ => "Instruction"

/-- The per-instruction translation loop of `lift_instruction`
(src/lua51-lifter/src/lifter.rs, lines 140-582) over the modelled
opcodes, threading the fresh-identity counter for the `Rc::new`
allocation of the `GetUpvalue` arm (lines 414-428) and stopping at
`Return` (lines 578-580).  The numeric-for opcodes fall to the
catch-all `Comment` arm as in the source; the `SetList` table-folding
arm (lines 453-555) is not modelled (`none`), and the theorems below
apply the lifter only to `SetList`-free code (streams containing
`SetList { block_number: 0 }` are already rejected during block
discovery). -/
def lift_instruction_go (bc : BytecodeFunction) (locals : List (Nat × LLocal)) :
    List Instruction → List Stmt → Nat → Option (List Stmt × Nat)
  | [], statements, counter => some (statements, counter)
  | insn :: rest, statements, counter =>
    match insn with
    | .move d s =>
      match lookupA locals d, lookupA locals s with
      | some ld, some ls =>
        lift_instruction_go bc locals rest
          (statements ++ [.assign [.local ld] [.local ls]]) counter
      | _, _ => none
    | .loadBoolean d v _ =>
      match lookupA locals d with
      | some ld =>
        lift_instruction_go bc locals rest
          (statements ++ [.assign [.local ld] [.literal (.boolean v)]]) counter
      | none => none
    | .loadConstant d k =>
      match lookupA locals d, constantOf bc k with
      | some ld, some lit =>
        lift_instruction_go bc locals rest
          (statements ++ [.assign [.local ld] [.literal lit]]) counter
      | _, _ => none
    | .test v cmp =>
      match lookupA locals v with
      | some lv =>
        lift_instruction_go bc locals rest
          (statements ++
            [.ifStmt (if cmp then .local lv else .unaryNot (.local lv))])
          counter
      | none => none
    | .jump _ => lift_instruction_go bc locals rest statements counter
    | .ret values _ =>
      match lookupAll locals values with
      | some ls => some (statements ++ [.ret (ls.map .local)], counter)
      | none => none
    | .getUpvalue d u =>
      match lookupA locals d, bc.upvalues.get? u with
      | some ld, some name =>
        lift_instruction_go bc locals rest
          (statements ++ [.assign [.local ld] [.local ⟨counter, some name⟩]])
          (counter + 1)
      | _, _ => none
    | .setList _ _ _ => none
    | .prepareNumericForLoop _ | .iterateNumericForLoop _ =>
      lift_instruction_go bc locals rest
        (statements ++ [.comment (debugRepr insn)]) counter

/-- `lift_instruction` over the inclusive range `[start, endIdx]`. -/
def lift_instruction (bc : BytecodeFunction) (locals : List (Nat × LLocal))
    (counter start endIdx : Nat) : Option (List Stmt × Nat) :=
  lift_instruction_go bc locals
    ((bc.code.drop start).take (endIdx + 1 - start)) [] counter

/-- The body of the `lift_blocks` loop for one code range
(src/lua51-lifter/src/lifter.rs, lines 584-643): translate the range,
extend the block's ast, then install the terminator from the last
instruction of the range; jump-family targets use the biased formula
`endIdx + step - 131070`. -/
def lift_block_range (bc : BytecodeFunction) (st : LifterState)
    (r : Nat × Nat) : Option LifterState :=
  match lift_instruction bc st.locals st.function.counter r.1 r.2 with
  | none => none
  | some (stmts, counter') =>
    match lookupA st.nodes r.1 with
    | none => none
    | some node =>
      match st.function.block node with
      | none => none
      | some _ =>
        let f := ((st.function.withCounter counter').extend_block node stmts)
        match bc.code.get? r.2 with
        | none => none
        | some lastInsn =>
          match lastInsn with
          | .test _ _ =>
            match lookupA st.nodes (r.2 + 1), lookupA st.nodes (r.2 + 2) with
            | some a, some b =>
              some { st with
                function := f.set_block_terminator node (some (.conditional a b)) }
            | _, _ => none
          | .jump step | .iterateNumericForLoop step
          | .prepareNumericForLoop step =>
            match f.block node with
            | some blk =>
              if blk.terminator = none then
                match lookupA st.nodes (r.2 + step - 131070) with
                | some tgt =>
                  some { st with
                    function := f.set_block_terminator node (some (.jump tgt)) }
                | none => none
              else some { st with function := f }
            | none => none
          | .ret _ _ => some { st with function := f }
          | .loadBoolean _ _ skip =>
            match lookupA st.nodes (r.2 + 1 + (if skip then 1 else 0)) with
            | some succ =>
              some { st with
                function := f.set_block_terminator node (some (.jump succ)) }
            | none => none
          | _ =>
            if r.2 + 1 ≠ bc.code.length then
              match lookupA st.nodes (r.2 + 1) with
              | some succ =>
                some { st with
                  function := f.set_block_terminator node (some (.jump succ)) }
              | none => none
            else some { st with function := f }

/-- `lift_blocks` (src/lua51-lifter/src/lifter.rs, lines 584-643). -/
def lift_blocks (bc : BytecodeFunction) (st : LifterState) :
    Option LifterState :=
  (code_ranges bc st).foldlM (lift_block_range bc) st

/-- The phases of `lift` before the orphan cleanup
(src/lua51-lifter/src/lifter.rs, lines 645-657). -/
def liftPre (bc : BytecodeFunction) : Option LifterState :=
  match create_block_map bc ⟨CFunction.default0, [], [], []⟩ with
  | none => none
  | some st1 => lift_blocks bc (allocate_locals bc st1)

/-- The orphan-cleanup pass (src/lua51-lifter/src/lifter.rs, lines
658-668): iterate the node indices (in index order), skipping the
entry, and remove each block that has no predecessors at the moment it
is visited. -/
def cleanup (st : LifterState) : Option LifterState :=
  match lookupA st.nodes 0 with
  | none => none
  | some entry0 =>
    some { st with
      function :=
        ((st.function.blocks.map Prod.fst).filter (· ≠ entry0)).foldl
          (fun f n =>
            if f.predecessor_blocks n = [] then f.remove_block n else f)
          st.function }

/-- `LifterContext::lift` (src/lua51-lifter/src/lifter.rs, lines
645-672): block discovery, local allocation, block translation,
orphan cleanup, then set the entry to the block at offset 0. -/
def lift (bc : BytecodeFunction) : Option CFunction :=
  match liftPre bc with
  | none => none
  | some st =>
    match cleanup st with
    | none => none
    | some st' =>
      match lookupA st'.nodes 0 with
      | none => none
      | some e => some (st'.function.set_entry e)

/-- One breadth step of reachability over a lifted function. -/
def expandC (f : CFunction) (seen : List Nat) : List Nat :=
  seen ++ ((seen.flatMap fun n => f.successor_blocks n).filter fun m =>
    m ∉ seen)

/-- Nodes reachable from `start` in a lifted function. -/
def reachC (f : CFunction) (start : Nat) : List Nat :=
  if (f.block start).isNone then []
  else (expandC f)^[f.blocks.length + 1] [start]

/-- The C6 counterexample bytecode: dead code after the initial return
forms a conditional self-loop (offset 2's backward jump is threaded
into the conditional at offset 1). -/
def bcCyc : BytecodeFunction :=
  ⟨[.ret [] false, .test 0 true, .jump 131069, .ret [] false], [], [], 1, 0⟩

/-- The witness bytecode: straight dead code after a return, removed
by the cleanup pass. -/
def bcOrphan : BytecodeFunction :=
  ⟨[.ret [] false, .ret [] false], [], [], 1, 0⟩

/-- The lifter state of `bcOrphan` just before the cleanup pass. -/
def stOrphan : LifterState :=
  (liftPre bcOrphan).getD ⟨CFunction.default0, [], [], []⟩

/-- The state of `bcOrphan` after the cleanup pass. -/
def stOrphanClean : LifterState :=
  (cleanup stOrphan).getD ⟨CFunction.default0, [], [], []⟩

/-- The C7 bytecodes: a `SetList` with `block_number: 0` at offset 0
and at offset 1 respectively. -/
def bcSL0a : BytecodeFunction :=
  ⟨[.setList 0 1 0, .ret [] false], [], [], 1, 0⟩

/-- Companion bytecode with the offending instruction at offset 1. -/
def bcSL0b : BytecodeFunction :=
  ⟨[.ret [] false, .setList 0 1 0], [], [], 1, 0⟩

/-- The raw biased branch step of the jump-family instructions. -/
def branchStep : Instruction → Option Nat
  | .jump s => some s
  | .prepareNumericForLoop s => some s
  | .iterateNumericForLoop s => some s
  | _ => none

/-- A forward jump used to witness the seeding half of C8. -/
def bcW : BytecodeFunction := ⟨[.jump 131071, .ret [] false], [], [], 1, 0⟩

/-- The node map `bcW`'s block discovery produces. -/
def stW : LifterState :=
  (create_block_map bcW ⟨CFunction.default0, [], [], []⟩).getD
    ⟨CFunction.default0, [], [], []⟩

/-- A numeric-for prepare used to witness the terminator half of C8. -/
def bcFor : BytecodeFunction :=
  ⟨[.prepareNumericForLoop 131071, .ret [] false], [], [], 1, 0⟩

/-- `bcFor`'s lifter state after block discovery and local
allocation. -/
def stFor : LifterState :=
  allocate_locals bcFor
    ((create_block_map bcFor ⟨CFunction.default0, [], [], []⟩).getD
      ⟨CFunction.default0, [], [], []⟩)

/-- The state after lifting `bcFor`'s first range. -/
def stFor' : LifterState :=
  (lift_block_range bcFor stFor (0, 0)).getD ⟨CFunction.default0, [], [], []⟩

/-- Identities of named locals read in an rvalue.  In the modelled
fragment a named local is produced only by the `GetUpvalue` arm's
`Rc::new(Local(Some(name)))`. -/
def rvNamedIds : LRValue → List Nat
  | .local l => match l.name with | some _ => [l.id] | none => []
  | .literal _ => []
  | .unaryNot v => rvNamedIds v

/-- Identities of named locals occurring in a statement. -/
def stmtNamedIds : Stmt → List Nat
  | .assign _ right => right.flatMap rvNamedIds
  | .ifStmt c => rvNamedIds c
  | .ret vs => vs.flatMap rvNamedIds
  | .comment _ => []

/-- Identities of named locals occurring in a statement list. -/
def listNamedIds (stmts : List Stmt) : List Nat :=
  stmts.flatMap stmtNamedIds

/-- Identities of named locals occurring in a block. -/
def blockNamedIds (b : CBlock) : List Nat := listNamedIds b.ast

/-- Identities of named locals occurring anywhere in a function. -/
def fnNamedIds (f : CFunction) : List Nat :=
  f.blocks.flatMap fun nb => blockNamedIds nb.2

/-- Every block of the function has an empty statement list (the state
of the graph throughout block discovery). -/
def allAstsEmpty (f : CFunction) : Prop :=
  ∀ p ∈ f.blocks, p.2.ast = ([] : List Stmt)

/-- The freshness invariant carried through `lift_blocks`: all named
locals in the function are pairwise distinct identities drawn at or
above the watermark `B` (the allocator state after `allocate_locals`)
and below the current allocator counter, while every register local
sits strictly below `B`. -/
def InvL (B : Nat) (f : CFunction) (locals : List (Nat × LLocal)) : Prop :=
  (fnNamedIds f).Nodup ∧
  (∀ id ∈ fnNamedIds f, B ≤ id ∧ id < f.counter) ∧
  B ≤ f.counter ∧
  (∀ r l, lookupA locals r = some l → l.name = none ∧ l.id < B)

/-- A function reading the same upvalue twice. -/
def bcUp : BytecodeFunction :=
  ⟨[.getUpvalue 0 0, .getUpvalue 1 0, .ret [] false], [], ["u"], 2, 0⟩

/-- `bcUp`'s lifter state after the translation phases. -/
def stUp : LifterState :=
  (liftPre bcUp).getD ⟨CFunction.default0, [], [], []⟩

end L51

namespace Ast

lemma map_subst_roundtrip (x y : RcLocal) (l : List RcLocal) (hy : y ∉ l) :
    (l.map fun v => if v = x then y else v).map (fun v => if v = y then x else v) = l := by
  induction l with
  | nil => simp
  | cons a t ih =>
    simp only [List.mem_cons, not_or] at hy
    obtain ⟨hay, hty⟩ := hy
    simp only [List.map_cons, ih hty, List.cons.injEq, and_true]
    by_cases hax : a = x
    · simp [hax]
    · have hya : a ≠ y := fun h => hay h.symm
      simp [hax, hya]

/-- C5 (counterexample): `replace_local(x, y)` followed by
`replace_local(y, x)` is not the identity when `y` already occurs in
the statement: a statement reading only `y` ends up reading `x`. -/
theorem c5_replace_local_not_involutive :
    replace_local (replace_local ⟨[⟨1⟩], []⟩ ⟨0⟩ ⟨1⟩) ⟨1⟩ ⟨0⟩ ≠
      (⟨[⟨1⟩], []⟩ : StmtLocals) := by
  decide

/-- C5 (amended): provided `y` occurs nowhere in the statement `s`
(neither as a read nor as a write), `replace_local(x, y)` followed by
`replace_local(y, x)` is the identity on `s`. -/
theorem c5_replace_local_roundtrip (s : StmtLocals) (x y : RcLocal)
    (hr : y ∉ s.reads) (hw : y ∉ s.writes) :
    replace_local (replace_local s x y) y x = s := by
  cases s with
  | mk reads writes =>
    simp only [replace_local, replace_values, replace_values_read,
      replace_values_written] at *
    exact congrArg₂ StmtLocals.mk (map_subst_roundtrip x y reads hr)
      (map_subst_roundtrip x y writes hw)

/-- C5 witness: the amended round-trip at a concrete statement. -/
theorem c5_replace_local_roundtrip_witness :
    (⟨1⟩ : RcLocal) ∉ ([⟨2⟩] : List RcLocal) ∧
      replace_local (replace_local ⟨[⟨2⟩], [⟨0⟩]⟩ ⟨0⟩ ⟨1⟩) ⟨1⟩ ⟨0⟩ =
        (⟨[⟨2⟩], [⟨0⟩]⟩ : StmtLocals) :=
  ⟨by decide, c5_replace_local_roundtrip ⟨[⟨2⟩], [⟨0⟩]⟩ ⟨0⟩ ⟨1⟩ (by decide) (by decide)⟩

end Ast

namespace Tbl

lemma mem_setOfList {α : Type} [DecidableEq α] (a : α) (l : List α) :
    a ∈ setOfList l ↔ a ∈ l := by
  induction l with
  | nil => simp [setOfList]
  | cons b t ih =>
    simp only [setOfList]
    by_cases h : b ∈ setOfList t
    · simp only [if_pos h, List.mem_cons, ih]
      constructor
      · exact Or.inr
      · rintro (rfl | hm)
        · exact ih.mp h
        · exact hm
    · simp [if_neg h, ih]

lemma nodup_setOfList {α : Type} [DecidableEq α] (l : List α) :
    (setOfList l).Nodup := by
  induction l with
  | nil => simp [setOfList]
  | cons b t ih =>
    simp only [setOfList]
    by_cases h : b ∈ setOfList t
    · simpa [if_pos h]
    · simpa [if_neg h, ih] using h

/-- C9 (counterexample): on `{ x = (value of type Any), (positional
value of type Number) }` the source eliminates the positional Number
because it is a strict subtype of the *named* field's type Any, so the
indexer value type degenerates to Any; the claim's rule (eliminate
only against positional entries) keeps Number. -/
theorem c9_table_infer_named_elimination :
    Table.infer [(some "x", Ty.any), (none, Ty.number)] ≠
      Table.infer_claim [(some "x", Ty.any), (none, Ty.number)] := by
  decide

lemma insertKV_of_det (m : List (String × Ty)) (k : String) (v : Ty)
    (h : ∀ v', (k, v') ∈ m → v' = v) (k' : String) (v' : Ty) :
    (k', v') ∈ insertKV m k v ↔ (k', v') ∈ m ∨ (k' = k ∧ v' = v) := by
  unfold insertKV
  by_cases hk : k ∈ m.map Prod.fst
  · rw [if_pos hk]
    obtain ⟨p, hp, hpk⟩ := List.mem_map.mp hk
    have hpv : p = (k, v) := by
      obtain ⟨pk, pv⟩ := p
      simp only at hpk
      subst hpk
      exact congrArg _ (h pv hp)
    have hmap : m.map (fun p => if p.1 = k then (k, v) else p) = m := by
      conv_rhs => rw [← List.map_id m]
      apply List.map_congr_left
      intro q hq
      by_cases hqk : q.1 = k
      · have hq' : (k, q.2) ∈ m := by
          rw [← hqk]; simpa using hq
        have := h q.2 hq'
        simp only [hqk, if_pos, id_eq, this]
        rw [← hqk, ← this]
      · simp [hqk]
    rw [hmap]
    constructor
    · exact Or.inl
    · rintro (hm | ⟨rfl, rfl⟩)
      · exact hm
      · rw [← hpv]; exact hp
  · rw [if_neg hk]
    simp [List.mem_append]

lemma mem_foldl_insertKV (l : List (String × Ty)) :
    ∀ m : List (String × Ty),
    (∀ k v1 v2, ((k, v1) ∈ m ∨ (k, v1) ∈ l) → ((k, v2) ∈ m ∨ (k, v2) ∈ l) →
      v1 = v2) →
    ∀ k v, ((k, v) ∈ l.foldl (fun m p => insertKV m p.1 p.2) m ↔
      (k, v) ∈ m ∨ (k, v) ∈ l) := by
  induction l with
  | nil => intro m _ k v; simp
  | cons p t ih =>
    intro m hdet k v
    obtain ⟨pk, pv⟩ := p
    simp only [List.foldl_cons]
    have hins : ∀ k' v', (k', v') ∈ insertKV m pk pv ↔
        (k', v') ∈ m ∨ (k' = pk ∧ v' = pv) := by
      intro k' v'
      exact insertKV_of_det m pk pv
        (fun v' hv' => hdet pk v' pv (Or.inl hv') (Or.inr (by simp))) k' v'
    have hdet' : ∀ k' v1 v2,
        ((k', v1) ∈ insertKV m pk pv ∨ (k', v1) ∈ t) →
        ((k', v2) ∈ insertKV m pk pv ∨ (k', v2) ∈ t) → v1 = v2 := by
      intro k' v1 v2 h1 h2
      have tr : ∀ v0, ((k', v0) ∈ insertKV m pk pv ∨ (k', v0) ∈ t) →
          ((k', v0) ∈ m ∨ (k', v0) ∈ (pk, pv) :: t) := by
        intro v0 h0
        rcases h0 with h0 | h0
        · rcases (hins k' v0).mp h0 with h0 | ⟨rfl, rfl⟩
          · exact Or.inl h0
          · exact Or.inr (by simp)
        · exact Or.inr (List.mem_cons_of_mem _ h0)
      exact hdet k' v1 v2 (tr v1 h1) (tr v2 h2)
    rw [ih (insertKV m pk pv) hdet' k v, hins k v]
    simp only [List.mem_cons, Prod.mk.injEq]
    tauto

lemma mem_mapOfList (l : List (String × Ty))
    (hdet : ∀ k v1 v2, (k, v1) ∈ l → (k, v2) ∈ l → v1 = v2)
    (k : String) (v : Ty) : (k, v) ∈ mapOfList l ↔ (k, v) ∈ l := by
  have := mem_foldl_insertKV l []
    (by intro k' v1 v2 h1 h2
        simp only [List.not_mem_nil, false_or] at h1 h2
        exact hdet k' v1 v2 h1 h2) k v
  simpa [mapOfList] using this

/-- C9 (amended): type inference on a table literal yields
`Table { indexer: (Any, V), fields }` where `fields` maps each named
entry to its inferred type, and `V` is the union of the inferred types
of the positional entries after eliminating every type that is a
strict subtype of *any* entry's type, named entries included; an empty
or singleton union is collapsed (`Any` when empty).  Stated for tables
in which a field name determines its inferred type. -/
theorem c9_table_infer_amended (entries : Entries)
    (hnames : ∀ n t1 t2, (some n, t1) ∈ entries → (some n, t2) ∈ entries →
      t1 = t2) :
    ∃ pos fields,
      Table.infer entries =
        Ty.table Ty.any (unionFold pos) (TyFields.ofList fields) ∧
      pos.Nodup ∧
      (∀ t, t ∈ pos ↔ ((none, t) ∈ entries ∧
        ∀ p ∈ entries, t = p.2 ∨ t.is_subtype_of p.2 = false)) ∧
      (∀ n t, (n, t) ∈ fields ↔ (some n, t) ∈ entries) := by
  refine ⟨inferPos entries, inferFields entries, rfl, nodup_setOfList _, ?_, ?_⟩
  · intro t
    have helim : ∀ (x : Ty),
        (((t != x) && Ty.is_subtype_of t x) = false ↔
          (t = x ∨ Ty.is_subtype_of t x = false)) := by
      intro x
      by_cases he : t = x
      · subst he; simp
      · have : (t != x) = true := by simpa using he
        simp [this, he]
    have hkept : ((none, t) ∈ inferKept entries) ↔
        ((none, t) ∈ entries ∧
          ∀ p ∈ entries, t = p.2 ∨ Ty.is_subtype_of t p.2 = false) := by
      unfold inferKept inferElements
      rw [List.mem_filter, mem_setOfList]
      constructor
      · rintro ⟨hm, hpred⟩
        refine ⟨hm, fun p hp => ?_⟩
        have h2 : ((setOfList entries).any fun fx =>
            (t != fx.2) && Ty.is_subtype_of t fx.2) = false := by
          simpa using hpred
        have h3 := List.any_eq_false.mp h2 p ((mem_setOfList p entries).mpr hp)
        exact (helim p.2).mp (by simpa using h3)
      · rintro ⟨hm, hall⟩
        refine ⟨hm, ?_⟩
        have h2 : ((setOfList entries).any fun fx =>
            (t != fx.2) && Ty.is_subtype_of t fx.2) = false := by
          apply List.any_eq_false.mpr
          intro p hp
          have := (helim p.2).mpr (hall p ((mem_setOfList p entries).mp hp))
          simpa using this
        simpa using h2
    rw [inferPos, mem_setOfList]
    simp only [List.mem_map, List.mem_filter]
    constructor
    · rintro ⟨ft, ⟨hft, hnone⟩, rfl⟩
      obtain ⟨f, t'⟩ := ft
      have : f = none := by simpa using hnone
      subst this
      exact hkept.mp hft
    · intro h
      exact ⟨(none, t), ⟨hkept.mpr h, by simp⟩, rfl⟩
  · have helem : ∀ (nn : String) (t' : Ty),
        ((some nn, t') ∈ inferKept entries ↔ (some nn, t') ∈ entries) := by
      intro nn t'
      unfold inferKept inferElements
      rw [List.mem_filter, mem_setOfList]
      constructor
      · exact fun h => h.1
      · exact fun h => ⟨h, by simp⟩
    have hnamed : ∀ (nn : String) (t' : Ty), (((nn, t') ∈
        ((inferKept entries).filterMap fun ft => ft.1.map fun m => (m, ft.2))) ↔
        (some nn, t') ∈ entries) := by
      intro nn t'
      rw [List.mem_filterMap]
      constructor
      · rintro ⟨⟨f, tv⟩, hmem, hmap⟩
        cases f with
        | none => simp at hmap
        | some fn =>
          simp only [Option.map_some', Option.some.injEq, Prod.mk.injEq] at hmap
          obtain ⟨rfl, rfl⟩ := hmap
          exact (helem fn tv).mp hmem
      · intro h
        exact ⟨(some nn, t'), (helem nn t').mpr h, rfl⟩
    intro n t
    rw [inferFields, mem_mapOfList]
    · exact hnamed n t
    · intro k v1 v2 h1 h2
      exact hnames k v1 v2 ((hnamed k v1).mp h1) ((hnamed k v2).mp h2)

/-- C9 witness: the amended characterization evaluated on the
counterexample table `{ x = Any, Number }`. -/
theorem c9_table_infer_amended_witness :
    (∀ n t1 t2, (some n, t1) ∈
        ([(some "x", Ty.any), (none, Ty.number)] : Entries) →
      (some n, t2) ∈ ([(some "x", Ty.any), (none, Ty.number)] : Entries) →
      t1 = t2) ∧
    ∃ pos fields,
      Table.infer [(some "x", Ty.any), (none, Ty.number)] =
        Ty.table Ty.any (unionFold pos) (TyFields.ofList fields) ∧
      pos.Nodup ∧
      (∀ t, t ∈ pos ↔ ((none, t) ∈
          ([(some "x", Ty.any), (none, Ty.number)] : Entries) ∧
        ∀ p ∈ ([(some "x", Ty.any), (none, Ty.number)] : Entries),
          t = p.2 ∨ t.is_subtype_of p.2 = false)) ∧
      (∀ n t, (n, t) ∈ fields ↔ (some n, t) ∈
        ([(some "x", Ty.any), (none, Ty.number)] : Entries)) := by
  have hproof : ∀ (n : String) (t1 t2 : Ty),
      (some n, t1) ∈ ([(some "x", Ty.any), (none, Ty.number)] : Entries) →
      (some n, t2) ∈ ([(some "x", Ty.any), (none, Ty.number)] : Entries) →
      t1 = t2 := by
    intro n t1 t2 h1 h2
    simp only [List.mem_cons, List.not_mem_nil, or_false, Prod.mk.injEq] at h1 h2
    rcases h1 with ⟨_, rfl⟩ | ⟨h, _⟩
    · rcases h2 with ⟨_, rfl⟩ | ⟨h, _⟩
      · rfl
      · exact absurd h (by simp)
    · exact absurd h (by simp)
  exact ⟨hproof, c9_table_infer_amended _ hproof⟩

end Tbl

namespace Ir

lemma lookup_modifyFirst (l : List (Nat × Block)) (n : Nat) (g : Block → Block)
    (m : Nat) :
    lookupBlock (modifyFirst l n g) m =
      if m = n then (lookupBlock l n).map g else lookupBlock l m := by
  induction l with
  | nil => simp [modifyFirst, lookupBlock]
  | cons p t ih =>
    obtain ⟨k, b⟩ := p
    by_cases hk : k = n
    · subst hk
      by_cases hm : m = k
      · subst hm; simp [modifyFirst, lookupBlock]
      · simp [modifyFirst, lookupBlock, hm, Ne.symm hm]
    · by_cases hm : m = k
      · subst hm
        simp [modifyFirst, lookupBlock, hk, Ne.symm hk]
      · simp [modifyFirst, lookupBlock, hk, Ne.symm hm, ih]

lemma keys_modifyFirst (l : List (Nat × Block)) (n : Nat) (g : Block → Block) :
    (modifyFirst l n g).map Prod.fst = l.map Prod.fst := by
  induction l with
  | nil => rfl
  | cons p t ih =>
    obtain ⟨k, b⟩ := p
    by_cases hk : k = n <;> simp [modifyFirst, hk, ih]

lemma phisAt_modifyBlock_other (f : Function) (n : Nat) (g : Block → Block)
    (m : Nat) (hm : m ≠ n) : phisAt (f.modifyBlock n g) m = phisAt f m := by
  unfold phisAt Function.modifyBlock Function.block
  rw [lookup_modifyFirst]
  simp [hm]

lemma phisAt_modifyBlock_preserve (f : Function) (n : Nat) (g : Block → Block)
    (m : Nat) (hg : ∀ b, (g b).phi_instructions = b.phi_instructions) :
    phisAt (f.modifyBlock n g) m = phisAt f m := by
  unfold phisAt Function.modifyBlock Function.block
  rw [lookup_modifyFirst]
  by_cases hm : m = n
  · subst hm
    cases h : lookupBlock f.blocks m <;> simp [h, hg]
  · simp [hm]

lemma phisAt_replaceUseLocations (f : Function) (v d : ValueId) (m : Nat) :
    phisAt (replaceUseLocations f v d) m = phisAt f m := by
  unfold replaceUseLocations
  generalize defUseLocations f v = locs
  induction locs generalizing f with
  | nil => simp
  | cons loc t ih =>
    simp only [List.foldl_cons]
    rw [ih]
    exact phisAt_modifyBlock_preserve _ _ _ _ (fun b => rfl)

lemma phisAt_foldIncoming (vs : List ValueId) (f : Function) (d : ValueId)
    (m : Nat) :
    phisAt (vs.foldl (fun f v => replaceUseLocations f v d) f) m =
      phisAt f m := by
  induction vs generalizing f with
  | nil => rfl
  | cons v t ih =>
    simp only [List.foldl_cons]
    rw [ih, phisAt_replaceUseLocations]

lemma phisAt_processPhi_other (f : Function) (node k m : Nat)
    (hm : m ≠ node) : phisAt (processPhi f node k) m = phisAt f m := by
  unfold processPhi
  cases hb : f.block node with
  | none => rfl
  | some b =>
    cases hp : b.phi_instructions.get? k with
    | none => simp only [hp]
    | some phi =>
      simp only [hp]
      rw [phisAt_modifyBlock_other _ _ _ _ hm, phisAt_foldIncoming]

lemma exists_block_of_phisAt (f : Function) (n : Nat) (ps : List Phi)
    (h : phisAt f n = some ps) :
    ∃ b, f.block n = some b ∧ b.phi_instructions = ps := by
  cases hb : f.block n with
  | none => rw [phisAt, hb] at h; simp at h
  | some b =>
    refine ⟨b, rfl, ?_⟩
    rw [phisAt, hb] at h
    simpa using h

lemma phisAt_processPhi_self (f : Function) (node k : Nat) (ps : List Phi)
    (hps : phisAt f node = some ps) (hk : k < ps.length) :
    phisAt (processPhi f node k) node = some (ps.eraseIdx k) := by
  obtain ⟨b, hb, hbp⟩ := exists_block_of_phisAt f node ps hps
  unfold processPhi
  rw [hb]
  have hk' : k < b.phi_instructions.length := by rw [hbp]; exact hk
  cases hphi : b.phi_instructions.get? k with
  | none =>
    exact absurd (List.get?_eq_none.mp hphi) (by omega)
  | some phi =>
    simp only [hphi]
    have hf' : phisAt ((phi.incoming_values.map Prod.snd).foldl
        (fun f v => replaceUseLocations f v phi.dest) f) node = some ps := by
      rw [phisAt_foldIncoming]; exact hps
    obtain ⟨b', hb', hbp'⟩ := exists_block_of_phisAt _ node ps hf'
    unfold phisAt Function.modifyBlock Function.block
    rw [lookup_modifyFirst]
    simp only [if_pos rfl]
    rw [show lookupBlock _ node = some b' from hb']
    simp [hbp']

lemma phisAt_processNode_other (f : Function) (node m : Nat) (k : Nat)
    (hm : m ≠ node) : phisAt (processNode f node k) m = phisAt f m := by
  induction k generalizing f with
  | zero => rfl
  | succ k ih =>
    unfold processNode
    rw [ih, phisAt_processPhi_other _ _ _ _ hm]

lemma phisAt_processNode_self (f : Function) (node k : Nat) (ps : List Phi)
    (hps : phisAt f node = some ps) (hlen : ps.length = k) :
    phisAt (processNode f node k) node = some [] := by
  induction k generalizing f ps with
  | zero =>
    unfold processNode
    rw [hps, List.length_eq_zero.mp hlen]
  | succ k ih =>
    unfold processNode
    refine ih (processPhi f node k) (ps.eraseIdx k) ?_ ?_
    · exact phisAt_processPhi_self f node k ps hps (by omega)
    · rw [List.length_eraseIdx_of_lt (by omega)]
      omega

lemma keys_modifyBlock (f : Function) (n : Nat) (g : Block → Block) :
    keysOf (f.modifyBlock n g) = keysOf f :=
  keys_modifyFirst f.blocks n g

lemma keys_replaceUseLocations (f : Function) (v d : ValueId) :
    keysOf (replaceUseLocations f v d) = keysOf f := by
  unfold replaceUseLocations
  generalize defUseLocations f v = locs
  induction locs generalizing f with
  | nil => rfl
  | cons loc t ih =>
    simp only [List.foldl_cons]
    rw [ih, keys_modifyBlock]

lemma keys_foldIncoming (vs : List ValueId) (f : Function) (d : ValueId) :
    keysOf (vs.foldl (fun f v => replaceUseLocations f v d) f) = keysOf f := by
  induction vs generalizing f with
  | nil => rfl
  | cons v t ih =>
    simp only [List.foldl_cons]
    rw [ih, keys_replaceUseLocations]

lemma keys_processPhi (f : Function) (node k : Nat) :
    keysOf (processPhi f node k) = keysOf f := by
  unfold processPhi
  cases hb : f.block node with
  | none => rfl
  | some b =>
    cases hp : b.phi_instructions.get? k with
    | none => simp only [hp]
    | some phi =>
      simp only [hp]
      rw [keys_modifyBlock, keys_foldIncoming]

lemma keys_processNode (f : Function) (node k : Nat) :
    keysOf (processNode f node k) = keysOf f := by
  induction k generalizing f with
  | zero => rfl
  | succ k ih =>
    unfold processNode
    rw [ih, keys_processPhi]

lemma keys_foldProcess (s : List (Nat × Nat)) (f : Function) :
    keysOf (s.foldl (fun f q => processNode f q.1 q.2) f) = keysOf f := by
  induction s generalizing f with
  | nil => rfl
  | cons q t ih =>
    simp only [List.foldl_cons]
    rw [ih, keys_processNode]

lemma keys_destruct (f : Function) : keysOf (destruct f) = keysOf f :=
  keys_foldProcess _ f

lemma mem_lookup_of_nodup (l : List (Nat × Block)) (n : Nat) (b : Block)
    (hN : (l.map Prod.fst).Nodup) (hmem : (n, b) ∈ l) :
    lookupBlock l n = some b := by
  induction l with
  | nil => simp at hmem
  | cons p t ih =>
    obtain ⟨k, pb⟩ := p
    simp only [List.map_cons, List.nodup_cons] at hN
    rcases List.mem_cons.mp hmem with heq | hmem'
    · injection heq with h1 h2
      subst h1; subst h2
      simp [lookupBlock]
    · have hk : k ≠ n := by
        intro hkn
        exact hN.1 (hkn ▸ List.mem_map_of_mem Prod.fst hmem')
      simp [lookupBlock, hk, ih hN.2 hmem']

lemma fold_preserves_other (s : List (Nat × Nat)) (f : Function) (m : Nat)
    (hm : m ∉ s.map Prod.fst) :
    phisAt (s.foldl (fun f q => processNode f q.1 q.2) f) m = phisAt f m := by
  induction s generalizing f with
  | nil => rfl
  | cons q t ih =>
    simp only [List.map_cons, List.mem_cons, not_or] at hm
    simp only [List.foldl_cons]
    rw [ih _ hm.2, phisAt_processNode_other _ _ _ _ hm.1]

lemma fold_processNode_empty (s : List (Nat × Nat)) (f : Function)
    (hN : (s.map Prod.fst).Nodup)
    (hs : ∀ p ∈ s, ∃ ps, phisAt f p.1 = some ps ∧ ps.length = p.2) :
    ∀ p ∈ s,
      phisAt (s.foldl (fun f q => processNode f q.1 q.2) f) p.1 = some [] := by
  induction s generalizing f with
  | nil => intro p hp; simp at hp
  | cons q t ih =>
    intro p hp
    simp only [List.map_cons, List.nodup_cons] at hN
    simp only [List.foldl_cons]
    rcases List.mem_cons.mp hp with rfl | hp'
    · obtain ⟨ps, hps, hlen⟩ := hs p (by simp)
      have h1 : phisAt (processNode f p.1 p.2) p.1 = some [] :=
        phisAt_processNode_self f p.1 p.2 ps hps hlen
      rw [fold_preserves_other t _ p.1 hN.1, h1]
    · have hne : p.1 ≠ q.1 := by
        intro he
        exact hN.1 (he ▸ List.mem_map_of_mem Prod.fst hp')
      refine ih (processNode f q.1 q.2) hN.2 ?_ p hp'
      intro r hr
      obtain ⟨ps, hps, hlen⟩ := hs r (List.mem_cons_of_mem _ hr)
      have hrq : r.1 ≠ q.1 := by
        intro he
        exact hN.1 (he ▸ List.mem_map_of_mem Prod.fst hr)
      exact ⟨ps, by rw [phisAt_processNode_other _ _ _ _ hrq]; exact hps, hlen⟩

/-- C4: after `destruct` returns, no block of the function contains a
φ-instruction: every block's `phi_instructions` list is empty.  Stated
for functions whose block map has no duplicate node keys (a `HashMap`
invariant). -/
theorem c4_destruct_no_phis (f : Function)
    (h : (f.blocks.map Prod.fst).Nodup) :
    ((destruct f).blocks.all fun nb => nb.2.phi_instructions.isEmpty) = true := by
  rw [List.all_eq_true]
  rintro ⟨n, b'⟩ hmem
  have hN' : ((destruct f).blocks.map Prod.fst).Nodup := by
    have : (destruct f).blocks.map Prod.fst = keysOf f := keys_destruct f
    rw [this]; exact h
  have hlook : lookupBlock (destruct f).blocks n = some b' :=
    mem_lookup_of_nodup _ n b' hN' hmem
  have hn : n ∈ keysOf f := by
    rw [← keys_destruct f]
    exact List.mem_map_of_mem Prod.fst hmem
  obtain ⟨⟨n', b⟩, hbmem, hfst⟩ := List.mem_map.mp hn
  simp only at hfst
  subst hfst
  have hsall : ∀ p ∈ (f.blocks.map fun nb => (nb.1, nb.2.phi_instructions.length)),
      ∃ ps, phisAt f p.1 = some ps ∧ ps.length = p.2 := by
    rintro ⟨pn, pl⟩ hp
    obtain ⟨⟨qn, qb⟩, hq, heq⟩ := List.mem_map.mp hp
    injection heq with h1 h2
    subst h1; subst h2
    exact ⟨qb.phi_instructions,
      by rw [phisAt, Function.block, mem_lookup_of_nodup _ _ _ h hq]; rfl, rfl⟩
  have hsN : ((f.blocks.map fun nb =>
      (nb.1, nb.2.phi_instructions.length)).map Prod.fst).Nodup := by
    rw [List.map_map]
    exact h
  have hempty : phisAt (destruct f) n' = some [] := by
    unfold destruct
    exact fold_processNode_empty _ f hsN hsall (n', b.phi_instructions.length)
      (List.mem_map_of_mem _ hbmem)
  rw [phisAt, Function.block, hlook] at hempty
  simp only [Option.map_some', Option.some.injEq] at hempty
  simp [hempty]

/-- C4 witness: `destruct` empties the phi lists of a concrete
two-block function with phis. -/
theorem c4_destruct_no_phis_witness :
    (((Ir.Function.mk [(0, ⟨[], [⟨[1], [2]⟩]⟩),
        (1, ⟨[⟨5, [(0, 2)]⟩], [⟨[5], [7]⟩]⟩)]).blocks.map Prod.fst).Nodup) ∧
    ((destruct (Ir.Function.mk [(0, ⟨[], [⟨[1], [2]⟩]⟩),
        (1, ⟨[⟨5, [(0, 2)]⟩], [⟨[5], [7]⟩]⟩)])).blocks.all
      fun nb => nb.2.phi_instructions.isEmpty) = true :=
  ⟨by decide, c4_destruct_no_phis _ (by decide)⟩

end Ir

namespace Rst

/-- C1 (counterexample): on the diamond, the source's
`try_match_pattern` attempts only the compound reduction and reports
no change, while the dispatch the claim describes reduces the diamond
through the simple if-then-else rule. -/
theorem c1_diamond_not_reduced :
    try_match_pattern fD 0 = some (fD, false) ∧
      (try_match_pattern_claim fD 0 (isBackEdge fD 0)).map Prod.snd =
        some true :=
  ⟨rfl, rfl⟩

/-- C1 (amended): for a node with exactly two successors (a
conditional terminator), `try_match_pattern` is exactly the attempt of
the short-circuit compound-conditional reduction; the simple
if-then-else and loop reductions are never attempted (their calls are
commented out in the source). -/
theorem c1_two_successors_only_compound (f : RFunction)
    (node s1 s2 t e : Nat)
    (hs : f.successor_blocks node = [s1, s2])
    (ht : (f.block node).bind (·.terminator) =
      some (Terminator.conditional t e)) :
    try_match_pattern f node = some (match_compound_conditional f node t e) := by
  unfold try_match_pattern
  simp only [hs, ht]

/-- C1 witness: the amended dispatch at the concrete diamond. -/
theorem c1_two_successors_only_compound_witness :
    fD.successor_blocks 0 = [1, 2] ∧
      (fD.block 0).bind (·.terminator) = some (Terminator.conditional 1 2) ∧
      try_match_pattern fD 0 = some (match_compound_conditional fD 0 1 2) :=
  ⟨rfl, rfl, c1_two_successors_only_compound fD 0 1 2 1 2 rfl rfl⟩

/-- C2 (counterexample): on the two-node cycle the edge 1 → 0
satisfies the claim's back-edge condition (its target dominates its
source), yet the structurer is constructed with an empty back-edge
list — the collection loop in `back_edges` is commented out. -/
theorem c2_back_edges_missing_edge :
    (GraphStructurer.new g2 g2 0).map (·.back_edges) = some [] ∧
      isBackEdge g2 0 1 0 = true :=
  ⟨rfl, by decide⟩

/-- C2 (amended): for every function and graph, the back-edge list the
structurer is constructed with is empty (the dominator computation is
run but the collection loop is commented out). -/
theorem c2_back_edges_always_empty (function graph : RFunction)
    (root : Nat) (s : GraphStructurer)
    (hnew : GraphStructurer.new function graph root = some s) :
    s.back_edges = [] := by
  unfold GraphStructurer.new at hnew
  cases he : function.entry with
  | none => rw [he] at hnew; exact absurd hnew (by simp)
  | some r =>
    rw [he] at hnew
    simp only [Option.some.injEq] at hnew
    subst hnew
    show Rst.back_edges graph root = []
    unfold Rst.back_edges
    generalize (graph.blocks.map Prod.fst) = l
    induction l with
    | nil => rfl
    | cons a t ih => exact ih

/-- C2 witness: the amended statement at the two-node cycle. -/
theorem c2_back_edges_always_empty_witness :
    GraphStructurer.new g2 g2 0 = some ⟨g2, 0, []⟩ ∧
      (⟨g2, 0, []⟩ : GraphStructurer).back_edges = [] :=
  ⟨rfl, c2_back_edges_always_empty g2 g2 0 ⟨g2, 0, []⟩ rfl⟩

/-- C3 (counterexample): on `fc` the structurer terminates with three
nodes left, prints the failed-to-collapse diagnostic (the flag), and
returns only the entry block's statements: the output carries no
`-- unstructured` comment marker at all, and the statements of the
remaining blocks (tag 1, tag 2) are discarded rather than emitted. -/
theorem c3_unstructured_blocks_discarded :
    lift fc 4 = some ([AStmt.other 0], true) ∧
      listTags [AStmt.other 0] = [0] ∧
      (fc.block 1).map (fun b => listTags b.ast) = some [1] ∧
      (fc.block 2).map (fun b => listTags b.ast) = some [2] ∧
      listHasComment [AStmt.other 0] = false :=
  ⟨rfl, rfl, rfl, rfl, rfl⟩

/-- C3 (amended): when the outer loop reaches its fixpoint (a
`match_blocks` pass reports no change), the structurer terminates
normally and returns exactly the entry block's statements together
with the stdout diagnostic flag (raised whenever more than one node
remains); the statements of the other remaining blocks are discarded
and no marker is appended to the output. -/
theorem c3_structure_keeps_only_root (s s' : GraphStructurer) (fuel : Nat)
    (b : BasicBlock)
    (hm : match_blocks s = some (s', false))
    (hb : s'.function.block s'.root = some b) :
    structureFn s (fuel + 1) =
      some (b.ast, s'.function.blocks.length != 1) := by
  unfold structureFn collapse collapseAux
  rw [hm]
  simp only [Option.map_some']
  show (match (s'.function.remove_block s'.root).1 with
    | none => none
    | some b => some (b.ast, s'.function.blocks.length != 1)) =
    some (b.ast, s'.function.blocks.length != 1)
  have : (s'.function.remove_block s'.root).1 = some b := hb
  rw [this]

/-- C3 witness: the amended statement at the concrete irreducible
CFG. -/
theorem c3_structure_keeps_only_root_witness :
    match_blocks sc = some (sc, false) ∧
      sc.function.block sc.root =
        some ⟨[AStmt.other 0], some (.conditional 1 2)⟩ ∧
      structureFn sc 1 =
        some ([AStmt.other 0], sc.function.blocks.length != 1) :=
  ⟨rfl, rfl, c3_structure_keeps_only_root sc sc 0 _ rfl rfl⟩

end Rst

namespace L51

lemma lookupA_removeA_none {α : Type} (l : List (Nat × α)) (m n : Nat)
    (h : lookupA l n = none) : lookupA (removeA l m) n = none := by
  induction l with
  | nil => rfl
  | cons p t ih =>
    obtain ⟨k, v⟩ := p
    by_cases hk : k = n
    · subst hk; simp [lookupA] at h
    · simp only [lookupA, if_neg hk] at h
      by_cases hm : k = m
      · simp [removeA, hm, h]
      · simp [removeA, hm, lookupA, hk, ih h]

lemma mem_keys_of_lookupA {α : Type} (l : List (Nat × α)) (n : Nat) (v : α)
    (h : lookupA l n = some v) : n ∈ l.map Prod.fst := by
  induction l with
  | nil => simp [lookupA] at h
  | cons p t ih =>
    obtain ⟨k, v'⟩ := p
    by_cases hk : k = n
    · subst hk; simp
    · simp only [lookupA, if_neg hk] at h
      simpa using Or.inr (ih h)

lemma lookupA_removeA_self {α : Type} (l : List (Nat × α)) (n : Nat)
    (hN : (l.map Prod.fst).Nodup) : lookupA (removeA l n) n = none := by
  induction l with
  | nil => rfl
  | cons p t ih =>
    obtain ⟨k, v⟩ := p
    simp only [List.map_cons, List.nodup_cons] at hN
    by_cases hk : k = n
    · subst hk
      simp only [removeA, if_pos rfl]
      cases h : lookupA t k with
      | none => exact h
      | some w => exact absurd (mem_keys_of_lookupA t k w h) hN.1
    · simp [removeA, hk, lookupA, ih hN.2]

lemma mem_removeA_sub {α : Type} (l : List (Nat × α)) (m : Nat)
    (p : Nat × α) (h : p ∈ removeA l m) : p ∈ l := by
  induction l with
  | nil => simpa [removeA] using h
  | cons q t ih =>
    obtain ⟨k, v⟩ := q
    by_cases hk : k = m
    · simp only [removeA, if_pos hk] at h
      exact List.mem_cons_of_mem _ h
    · simp only [removeA, if_neg hk, List.mem_cons] at h
      rcases h with rfl | h
      · simp
      · exact List.mem_cons_of_mem _ (ih h)

lemma keys_removeA_sublist {α : Type} (l : List (Nat × α)) (m : Nat) :
    ((removeA l m).map Prod.fst).Sublist (l.map Prod.fst) := by
  induction l with
  | nil => simp [removeA]
  | cons q t ih =>
    obtain ⟨k, v⟩ := q
    by_cases hk : k = m
    · simp only [removeA, if_pos hk, List.map_cons]
      exact (List.sublist_cons_self _ _)
    · simp only [removeA, if_neg hk, List.map_cons]
      exact ih.cons₂ k

lemma block_remove_block_none (f : CFunction) (m n : Nat)
    (h : f.block n = none) : (f.remove_block m).block n = none := by
  unfold CFunction.remove_block
  by_cases hb : (f.block m).isSome
  · simp only [if_pos hb]
    exact lookupA_removeA_none f.blocks m n h
  · simpa [if_neg hb]

lemma preds_remove_block_nil (f : CFunction) (m n : Nat)
    (h : f.predecessor_blocks n = []) :
    (f.remove_block m).predecessor_blocks n = [] := by
  unfold CFunction.predecessor_blocks at h ⊢
  rw [List.map_eq_nil_iff] at h ⊢
  rw [List.filter_eq_nil_iff] at h ⊢
  intro p hp
  unfold CFunction.remove_block at hp
  by_cases hb : (f.block m).isSome
  · simp only [if_pos hb] at hp
    exact h p (mem_removeA_sub f.blocks m p hp)
  · simp only [if_neg hb] at hp
    exact h p hp

lemma nodup_remove_block (f : CFunction) (m : Nat)
    (hN : (f.blocks.map Prod.fst).Nodup) :
    ((f.remove_block m).blocks.map Prod.fst).Nodup := by
  unfold CFunction.remove_block
  by_cases hb : (f.block m).isSome
  · simp only [if_pos hb]
    exact hN.sublist (keys_removeA_sublist f.blocks m)
  · simpa [if_neg hb]

lemma block_remove_block_self (f : CFunction) (n : Nat)
    (hN : (f.blocks.map Prod.fst).Nodup) :
    (f.remove_block n).block n = none := by
  unfold CFunction.remove_block
  cases hb : (f.block n) with
  | none => simpa [hb]
  | some b =>
    simp only [hb, Option.isSome_some, if_pos]
    exact lookupA_removeA_self f.blocks n hN

lemma cleanup_fold_none (ids : List Nat) (f : CFunction) (n : Nat)
    (h : f.block n = none) :
    (ids.foldl (fun f i =>
      if f.predecessor_blocks i = [] then f.remove_block i else f) f).block n =
      none := by
  induction ids generalizing f with
  | nil => exact h
  | cons i rest ih =>
    simp only [List.foldl_cons]
    by_cases hc : f.predecessor_blocks i = []
    · rw [if_pos hc]
      exact ih _ (block_remove_block_none f i n h)
    · rw [if_neg hc]
      exact ih _ h

lemma cleanup_fold_removes (ids : List Nat) (f : CFunction) (n : Nat)
    (hN : (f.blocks.map Prod.fst).Nodup)
    (hn : n ∈ ids) (hp : f.predecessor_blocks n = []) :
    (ids.foldl (fun f i =>
      if f.predecessor_blocks i = [] then f.remove_block i else f) f).block n =
      none := by
  induction ids generalizing f with
  | nil => simp at hn
  | cons i rest ih =>
    simp only [List.foldl_cons]
    by_cases hi : i = n
    · rw [hi, if_pos hp]
      exact cleanup_fold_none rest _ n (block_remove_block_self f n hN)
    · have hn' : n ∈ rest := by
        rcases List.mem_cons.mp hn with h | h
        · exact absurd h.symm hi
        · exact h
      by_cases hc : f.predecessor_blocks i = []
      · rw [if_pos hc]
        exact ih _ (nodup_remove_block f i hN) hn'
          (preds_remove_block_nil f i n hp)
      · rw [if_neg hc]
        exact ih _ hN hn' hp

/-- C6 (counterexample): lifting `bcCyc` leaves a block (node 1, a
conditional self-loop created by dead code after the first return)
that survives the orphan cleanup — it is its own predecessor — yet is
unreachable from the entry block. -/
theorem c6_unreachable_cycle_survives :
    (lift bcCyc).map (fun f =>
      ((f.block 1).isSome, f.entry, f.predecessor_blocks 1,
        decide (1 ∈ reachC f 0))) = some (true, some 0, [1], false) := by
  rfl

/-- C6 (amended): the cleanup pass does remove every non-entry block
that already has no predecessors when the pass starts (removal of
other orphans never gives a block new predecessors); blocks that are
unreachable but have predecessors — unreachable cycles — can
survive. -/
theorem c6_cleanup_removes_initial_orphans (st st' : LifterState)
    (e0 n : Nat)
    (hc : cleanup st = some st')
    (hN : (st.function.blocks.map Prod.fst).Nodup)
    (he : lookupA st.nodes 0 = some e0)
    (hn : n ≠ e0)
    (hb : (st.function.block n).isSome = true)
    (hp : st.function.predecessor_blocks n = []) :
    st'.function.block n = none := by
  unfold cleanup at hc
  rw [he] at hc
  simp only [Option.some.injEq] at hc
  subst hc
  simp only
  apply cleanup_fold_removes _ _ _ hN _ hp
  rw [List.mem_filter]
  refine ⟨?_, by simpa using hn⟩
  cases hlook : st.function.block n with
  | none => rw [hlook] at hb; simp at hb
  | some b => exact mem_keys_of_lookupA _ _ _ hlook

/-- C6 witness: the amended statement on `bcOrphan`, whose block 1 is
dead code after the return and is removed by the cleanup. -/
theorem c6_cleanup_removes_initial_orphans_witness :
    cleanup stOrphan = some stOrphanClean ∧
      (stOrphan.function.blocks.map Prod.fst).Nodup ∧
      lookupA stOrphan.nodes 0 = some 0 ∧
      (stOrphan.function.block 1).isSome = true ∧
      stOrphan.function.predecessor_blocks 1 = [] ∧
      stOrphanClean.function.block 1 = none :=
  ⟨rfl, by decide, rfl, rfl, rfl,
    c6_cleanup_removes_initial_orphans stOrphan stOrphanClean 0 1 rfl
      (by decide) rfl (by decide) rfl rfl⟩

lemma cbmGo_setlist0_none (code : List Instruction) :
    ∀ (st : LifterState) (j i t n : Nat),
    code.get? i = some (.setList t n 0) → cbmGo st j code = none := by
  induction code with
  | nil => intro st j i t n h; simp at h
  | cons insn rest ih =>
    intro st j i t n h
    cases i with
    | zero =>
      simp only [List.get?_cons_zero, Option.some.injEq] at h
      subst h
      rfl
    | succ i' =>
      simp only [List.get?_cons_succ] at h
      unfold cbmGo
      cases hs : create_block_map_step st j insn with
      | none => rfl
      | some st' => exact ih st' (j + 1) i' t n h

/-- C7 (amended): lifting any bytecode containing a
`SetList { block_number: 0 }` fails fatally — the scan hits the
`todo!()` during block discovery, before any output is produced — but
the failure carries no pointer to the offending source offset. -/
theorem c7_setlist0_fatal (bc : BytecodeFunction) (i t n : Nat)
    (h : bc.code.get? i = some (.setList t n 0)) :
    lift bc = none := by
  have hnone : create_block_map bc ⟨CFunction.default0, [], [], []⟩ = none := by
    unfold create_block_map
    exact cbmGo_setlist0_none bc.code _ 0 i t n h
  unfold lift liftPre
  rw [hnone]

/-- C7 (counterexample): the failure value is identical for streams
whose offending `SetList` sits at different offsets — the `todo!()`
panic carries no information about the source offset, contradicting
the claimed offset report. -/
theorem c7_no_offset_in_failure :
    lift bcSL0a = none ∧ lift bcSL0b = none ∧
      lift bcSL0a = lift bcSL0b ∧ bcSL0a ≠ bcSL0b :=
  ⟨rfl, rfl, rfl, by decide⟩

/-- C7 witness: the amended fatality at the concrete stream. -/
theorem c7_setlist0_fatal_witness :
    bcSL0a.code.get? 0 = some (.setList 0 1 0) ∧ lift bcSL0a = none :=
  ⟨rfl, c7_setlist0_fatal bcSL0a 0 0 1 rfl⟩

lemma lookupA_assocInsert {α : Type} (m : List (Nat × α)) (k : Nat) (v : α)
    (n : Nat) :
    lookupA (assocInsert m k v) n = if n = k then some v else lookupA m n := by
  induction m with
  | nil =>
    by_cases h : n = k <;> simp [assocInsert, lookupA, h, Ne.symm]
  | cons p t ih =>
    obtain ⟨k', v'⟩ := p
    by_cases hk : k' = k
    · subst hk
      by_cases hn : n = k'
      · subst hn; simp [assocInsert, lookupA]
      · simp [assocInsert, lookupA, hn, Ne.symm hn]
    · by_cases hn : n = k'
      · subst hn
        simp [assocInsert, hk, lookupA, Ne.symm hk]
      · simp [assocInsert, hk, lookupA, Ne.symm hn, ih]

lemma lookupA_modifyA {α : Type} (m : List (Nat × α)) (k : Nat) (g : α → α)
    (n : Nat) :
    lookupA (modifyA m k g) n =
      if n = k then (lookupA m k).map g else lookupA m n := by
  induction m with
  | nil => by_cases h : n = k <;> simp [modifyA, lookupA, h]
  | cons p t ih =>
    obtain ⟨k', v'⟩ := p
    by_cases hk : k' = k
    · subst hk
      by_cases hn : n = k'
      · subst hn; simp [modifyA, lookupA]
      · simp [modifyA, lookupA, hn, Ne.symm hn]
    · by_cases hn : n = k'
      · subst hn
        simp [modifyA, hk, lookupA, Ne.symm hk]
      · simp [modifyA, hk, lookupA, Ne.symm hn, ih]

lemma orInsert_preserves (st : LifterState) (k' k : Nat)
    (h : (lookupA st.nodes k).isSome = true) :
    (lookupA (orInsertNew st k').2.nodes k).isSome = true := by
  unfold orInsertNew
  cases hl : lookupA st.nodes k' with
  | some v => exact h
  | none =>
    simp only
    rw [lookupA_assocInsert]
    by_cases hk : k = k' <;> simp [hk, h]

lemma orInsert_ensures (st : LifterState) (k : Nat) :
    (lookupA (orInsertNew st k).2.nodes k).isSome = true := by
  unfold orInsertNew
  cases hl : lookupA st.nodes k with
  | some v => simp [hl]
  | none =>
    simp only
    rw [lookupA_assocInsert]
    simp

lemma cbm_step_preserves (st st' : LifterState) (i : Nat) (insn : Instruction)
    (hs : create_block_map_step st i insn = some st') (k : Nat)
    (h : (lookupA st.nodes k).isSome = true) :
    (lookupA st'.nodes k).isSome = true := by
  cases insn with
  | setList t n b =>
    cases b with
    | zero => simp [create_block_map_step] at hs
    | succ b' =>
      simp only [create_block_map_step] at hs
      cases hs
      exact h
  | loadBoolean d v skip =>
    cases skip with
    | true =>
      simp only [create_block_map_step] at hs
      cases hs
      exact orInsert_preserves st _ k h
    | false =>
      simp only [create_block_map_step] at hs
      cases hs
      exact h
  | test v c =>
    simp only [create_block_map_step] at hs
    cases hs
    exact orInsert_preserves _ _ k (orInsert_preserves st _ k h)
  | jump step =>
    simp only [create_block_map_step] at hs
    cases hl : lookupA (orInsertNew (orInsertNew st
        (i + step - 131070)).2 (i + 1)).2.nodes i with
    | some jmp =>
      rw [hl] at hs
      cases hs
      simp only
      rw [lookupA_assocInsert]
      by_cases hk : k = i
      · simp [hk]
      · simp only [if_neg hk]
        exact orInsert_preserves _ _ k (orInsert_preserves st _ k h)
    | none =>
      rw [hl] at hs
      cases hs
      exact orInsert_preserves _ _ k (orInsert_preserves st _ k h)
  | iterateNumericForLoop step =>
    simp only [create_block_map_step] at hs
    cases hs
    exact orInsert_preserves _ _ k (orInsert_preserves st _ k h)
  | prepareNumericForLoop step =>
    simp only [create_block_map_step] at hs
    cases hs
    exact orInsert_preserves _ _ k (orInsert_preserves st _ k h)
  | move d s =>
    simp only [create_block_map_step] at hs
    cases hs
    exact h
  | loadConstant d s =>
    simp only [create_block_map_step] at hs
    cases hs
    exact h
  | ret vs vr =>
    simp only [create_block_map_step] at hs
    cases hs
    exact orInsert_preserves st _ k h
  | getUpvalue d u =>
    simp only [create_block_map_step] at hs
    cases hs
    exact h

lemma cbm_step_target (st st' : LifterState) (i s : Nat) (insn : Instruction)
    (hb : branchStep insn = some s)
    (hs : create_block_map_step st i insn = some st') :
    (lookupA st'.nodes (i + s - 131070)).isSome = true := by
  cases insn with
  | jump step =>
    simp only [branchStep, Option.some.injEq] at hb
    subst hb
    simp only [create_block_map_step] at hs
    cases hl : lookupA (orInsertNew (orInsertNew st
        (i + step - 131070)).2 (i + 1)).2.nodes i with
    | some jmp =>
      rw [hl] at hs
      cases hs
      simp only
      rw [lookupA_assocInsert]
      by_cases hk : i + step - 131070 = i
      · simp [hk]
      · simp only [if_neg hk]
        exact orInsert_preserves _ _ _ (orInsert_ensures st _)
    | none =>
      rw [hl] at hs
      cases hs
      exact orInsert_preserves _ _ _ (orInsert_ensures st _)
  | iterateNumericForLoop step =>
    simp only [branchStep, Option.some.injEq] at hb
    subst hb
    simp only [create_block_map_step] at hs
    cases hs
    exact orInsert_preserves _ _ _ (orInsert_ensures st _)
  | prepareNumericForLoop step =>
    simp only [branchStep, Option.some.injEq] at hb
    subst hb
    simp only [create_block_map_step] at hs
    cases hs
    exact orInsert_preserves _ _ _ (orInsert_ensures st _)
  | move d s' => simp [branchStep] at hb
  | loadConstant d s' => simp [branchStep] at hb
  | loadBoolean d v skip => simp [branchStep] at hb
  | test v c => simp [branchStep] at hb
  | ret vs vr => simp [branchStep] at hb
  | getUpvalue d u => simp [branchStep] at hb
  | setList t n b => simp [branchStep] at hb

lemma cbmGo_preserves (code : List Instruction) :
    ∀ (st st' : LifterState) (j : Nat), cbmGo st j code = some st' →
    ∀ k, (lookupA st.nodes k).isSome = true →
      (lookupA st'.nodes k).isSome = true := by
  induction code with
  | nil =>
    intro st st' j h k hk
    simp only [cbmGo] at h
    cases h
    exact hk
  | cons insn rest ih =>
    intro st st' j h k hk
    unfold cbmGo at h
    cases hs : create_block_map_step st j insn with
    | none => rw [hs] at h; simp at h
    | some st1 =>
      rw [hs] at h
      exact ih st1 st' (j + 1) h k (cbm_step_preserves st st1 j insn hs k hk)

lemma cbmGo_target (code : List Instruction) :
    ∀ (st st' : LifterState) (j i s : Nat) (insn : Instruction),
    cbmGo st j code = some st' →
    code.get? i = some insn → branchStep insn = some s →
    (lookupA st'.nodes (j + i + s - 131070)).isSome = true := by
  induction code with
  | nil => intro st st' j i s insn _ hg; simp at hg
  | cons insn0 rest ih =>
    intro st st' j i s insn h hg hb
    unfold cbmGo at h
    cases hs : create_block_map_step st j insn0 with
    | none => rw [hs] at h; simp at h
    | some st1 =>
      rw [hs] at h
      cases i with
      | zero =>
        simp only [List.get?_cons_zero, Option.some.injEq] at hg
        subst hg
        have := cbm_step_target st st1 j s insn0 hb hs
        have h2 := cbmGo_preserves rest st1 st' (j + 1) h _ this
        simpa using h2
      | succ i' =>
        simp only [List.get?_cons_succ] at hg
        have := ih st1 st' (j + 1) i' s insn h hg hb
        have harith : j + 1 + i' = j + (i' + 1) := by omega
        rw [harith] at this
        exact this

lemma block_extend_self (f : CFunction) (n : Nat) (stmts : List Stmt) :
    (f.extend_block n stmts).block n =
      (f.block n).map fun b => { b with ast := b.ast ++ stmts } := by
  unfold CFunction.extend_block CFunction.block
  rw [lookupA_modifyA]
  simp

lemma block_set_terminator_self (f : CFunction) (n : Nat)
    (t : Option CTerminator) :
    (f.set_block_terminator n t).block n =
      (f.block n).map fun b => { b with terminator := t } := by
  unfold CFunction.set_block_terminator CFunction.block
  rw [lookupA_modifyA]
  simp

/-- C8: the branch target of the jump family (`Jump`,
`PrepareNumericForLoop`, `IterateNumericForLoop`) is computed as
`instruction_index + raw_step - 131070` both when seeding block heads
during block discovery (a block exists at that key after
`create_block_map`) and when installing a block's terminator (a block
whose range ends in such an instruction, with no terminator installed
yet, receives a jump to the node registered at that key). -/
theorem c8_jump_target_bias :
    (∀ (bc : BytecodeFunction) (st st' : LifterState) (i s : Nat)
      (insn : Instruction),
      create_block_map bc st = some st' →
      bc.code.get? i = some insn → branchStep insn = some s →
      (lookupA st'.nodes (i + s - 131070)).isSome = true) ∧
    (∀ (bc : BytecodeFunction) (st st' : LifterState)
      (start endIdx s node : Nat) (insn : Instruction) (b : CBlock),
      bc.code.get? endIdx = some insn → branchStep insn = some s →
      lookupA st.nodes start = some node →
      st.function.block node = some b → b.terminator = none →
      lift_block_range bc st (start, endIdx) = some st' →
      ∃ tgt, lookupA st.nodes (endIdx + s - 131070) = some tgt ∧
        (st'.function.block node).map (·.terminator) =
          some (some (.jump tgt))) := by
  constructor
  · intro bc st st' i s insn hc hg hb
    unfold create_block_map at hc
    have := cbmGo_target bc.code _ st' 0 i s insn hc hg hb
    simpa using this
  · intro bc st st' start endIdx s node insn b hg hb hn hblk hterm hr
    unfold lift_block_range at hr
    cases hli : lift_instruction bc st.locals st.function.counter start endIdx with
    | none => rw [hli] at hr; simp at hr
    | some p =>
      rw [hli] at hr
      simp only [hn, hblk, hg] at hr
      have hfb : ((st.function.withCounter p.2).extend_block node p.1).block
          node = some { b with ast := b.ast ++ p.1 } := by
        rw [block_extend_self]
        show ((st.function.block node).map _) = _
        rw [hblk]
        rfl
      cases insn with
      | jump step =>
        simp only [branchStep, Option.some.injEq] at hb
        subst hb
        simp only [hfb, hterm, if_pos] at hr
        cases hl : lookupA st.nodes (endIdx + step - 131070) with
        | none => rw [hl] at hr; simp at hr
        | some tgt =>
          rw [hl] at hr
          simp only [Option.some.injEq] at hr
          subst hr
          refine ⟨tgt, rfl, ?_⟩
          simp only
          rw [block_set_terminator_self, hfb]
          rfl
      | iterateNumericForLoop step =>
        simp only [branchStep, Option.some.injEq] at hb
        subst hb
        simp only [hfb, hterm, if_pos] at hr
        cases hl : lookupA st.nodes (endIdx + step - 131070) with
        | none => rw [hl] at hr; simp at hr
        | some tgt =>
          rw [hl] at hr
          simp only [Option.some.injEq] at hr
          subst hr
          refine ⟨tgt, rfl, ?_⟩
          simp only
          rw [block_set_terminator_self, hfb]
          rfl
      | prepareNumericForLoop step =>
        simp only [branchStep, Option.some.injEq] at hb
        subst hb
        simp only [hfb, hterm, if_pos] at hr
        cases hl : lookupA st.nodes (endIdx + step - 131070) with
        | none => rw [hl] at hr; simp at hr
        | some tgt =>
          rw [hl] at hr
          simp only [Option.some.injEq] at hr
          subst hr
          refine ⟨tgt, rfl, ?_⟩
          simp only
          rw [block_set_terminator_self, hfb]
          rfl
      | move d s' => simp [branchStep] at hb
      | loadConstant d s' => simp [branchStep] at hb
      | loadBoolean d v skip => simp [branchStep] at hb
      | test v c => simp [branchStep] at hb
      | ret vs vr => simp [branchStep] at hb
      | getUpvalue d u => simp [branchStep] at hb
      | setList t n bn => simp [branchStep] at hb

/-- C8 witness: both halves at concrete streams — a forward `Jump`
with step 131071 at offset 0 seeds a block for index 1, and a
`PrepareNumericForLoop` with the same step installs a jump terminator
to the node registered at index 1. -/
theorem c8_jump_target_bias_witness :
    (create_block_map bcW ⟨CFunction.default0, [], [], []⟩ = some stW ∧
      (lookupA stW.nodes (0 + 131071 - 131070)).isSome = true) ∧
    (lift_block_range bcFor stFor (0, 0) = some stFor' ∧
      ∃ tgt, lookupA stFor.nodes (0 + 131071 - 131070) = some tgt ∧
        (stFor'.function.block 0).map (·.terminator) =
          some (some (.jump tgt))) :=
  ⟨⟨rfl, c8_jump_target_bias.1 bcW ⟨CFunction.default0, [], [], []⟩ stW 0
      131071 (.jump 131071) rfl rfl rfl⟩,
    ⟨rfl, c8_jump_target_bias.2 bcFor stFor stFor' 0 0 131071 0
      (.prepareNumericForLoop 131071) ⟨[], none⟩ rfl rfl rfl rfl rfl rfl⟩⟩

lemma listNamedIds_append (a b : List Stmt) :
    listNamedIds (a ++ b) = listNamedIds a ++ listNamedIds b := by
  simp [listNamedIds]

lemma flatNamed_of_empty (l : List (Nat × CBlock))
    (h : ∀ p ∈ l, p.2.ast = ([] : List Stmt)) :
    (l.flatMap fun nb => blockNamedIds nb.2) = [] := by
  induction l with
  | nil => rfl
  | cons p t ih =>
    simp only [List.flatMap_cons]
    rw [ih (fun q hq => h q (List.mem_cons_of_mem _ hq))]
    have hp := h p (by simp)
    simp [blockNamedIds, listNamedIds, hp]

lemma fnNamedIds_of_empty (f : CFunction) (h : allAstsEmpty f) :
    fnNamedIds f = [] :=
  flatNamed_of_empty f.blocks h

lemma mem_insertSortedBlock (n : Nat) (b : CBlock)
    (l : List (Nat × CBlock)) (p : Nat × CBlock)
    (h : p ∈ insertSortedBlock n b l) : p = (n, b) ∨ p ∈ l := by
  induction l with
  | nil => simpa [insertSortedBlock] using h
  | cons q t ih =>
    unfold insertSortedBlock at h
    by_cases hle : n ≤ q.1
    · obtain ⟨qk, qv⟩ := q
      rw [if_pos hle] at h
      rcases List.mem_cons.mp h with rfl | h2
      · exact Or.inl rfl
      · exact Or.inr h2
    · obtain ⟨qk, qv⟩ := q
      rw [if_neg hle] at h
      rcases List.mem_cons.mp h with rfl | h2
      · exact Or.inr (by simp)
      · rcases ih h2 with h3 | h3
        · exact Or.inl h3
        · exact Or.inr (List.mem_cons_of_mem _ h3)

lemma allAstsEmpty_new_block (f : CFunction) (h : allAstsEmpty f) :
    allAstsEmpty f.new_block.2 := by
  unfold CFunction.new_block
  cases hf : f.free with
  | cons i rest =>
    intro p hp
    rcases mem_insertSortedBlock i ⟨[], none⟩ f.blocks p hp with rfl | hp2
    · rfl
    · exact h p hp2
  | nil =>
    intro p hp
    rcases List.mem_append.mp hp with hp2 | hp2
    · exact h p hp2
    · simp only [List.mem_singleton] at hp2
      subst hp2
      rfl

lemma counter_remove_block (g : CFunction) (m : Nat) :
    (g.remove_block m).counter = g.counter := by
  unfold CFunction.remove_block
  by_cases hb : (g.block m).isSome
  · rw [if_pos hb]
  · rw [if_neg hb]

lemma allAstsEmpty_remove_block (f : CFunction) (m : Nat)
    (h : allAstsEmpty f) : allAstsEmpty (f.remove_block m) := by
  unfold CFunction.remove_block
  by_cases hb : (f.block m).isSome
  · rw [if_pos hb]
    intro p hp
    exact h p (mem_removeA_sub f.blocks m p hp)
  · rwa [if_neg hb]

lemma orInsertNew_invariants (st : LifterState) (k : Nat)
    (h : allAstsEmpty st.function) :
    allAstsEmpty (orInsertNew st k).2.function ∧
      (orInsertNew st k).2.function.counter = st.function.counter ∧
      (orInsertNew st k).2.locals = st.locals := by
  unfold orInsertNew
  cases hl : lookupA st.nodes k with
  | some v => exact ⟨h, rfl, rfl⟩
  | none =>
    refine ⟨allAstsEmpty_new_block st.function h, ?_, rfl⟩
    unfold CFunction.new_block
    cases st.function.free <;> rfl

lemma cbm_step_invariants (st st' : LifterState) (i : Nat)
    (insn : Instruction)
    (hs : create_block_map_step st i insn = some st')
    (h : allAstsEmpty st.function) :
    allAstsEmpty st'.function ∧
      st'.function.counter = st.function.counter ∧
      st'.locals = st.locals := by
  cases insn with
  | setList t n b =>
    cases b with
    | zero => simp [create_block_map_step] at hs
    | succ b' =>
      simp only [create_block_map_step] at hs
      cases hs
      exact ⟨h, rfl, rfl⟩
  | loadBoolean d v skip =>
    cases skip with
    | true =>
      simp only [create_block_map_step] at hs
      cases hs
      exact orInsertNew_invariants st _ h
    | false =>
      simp only [create_block_map_step] at hs
      cases hs
      exact ⟨h, rfl, rfl⟩
  | test v c =>
    simp only [create_block_map_step] at hs
    cases hs
    obtain ⟨h1, h2, h3⟩ := orInsertNew_invariants st (i + 1) h
    obtain ⟨h4, h5, h6⟩ := orInsertNew_invariants _ (i + 2) h1
    exact ⟨h4, by rw [h5, h2], by rw [h6, h3]⟩
  | jump step =>
    simp only [create_block_map_step] at hs
    obtain ⟨h1, h2, h3⟩ := orInsertNew_invariants st (i + step - 131070) h
    obtain ⟨h4, h5, h6⟩ := orInsertNew_invariants _ (i + 1) h1
    cases hl : lookupA (orInsertNew (orInsertNew st
        (i + step - 131070)).2 (i + 1)).2.nodes i with
    | some jmp =>
      rw [hl] at hs
      cases hs
      refine ⟨allAstsEmpty_remove_block _ jmp h4, ?_, by rw [h6, h3]⟩
      show ((orInsertNew (orInsertNew st
        (i + step - 131070)).2 (i + 1)).2.function.remove_block jmp).counter =
        st.function.counter
      rw [counter_remove_block, h5, h2]
    | none =>
      rw [hl] at hs
      cases hs
      exact ⟨h4, by rw [h5, h2], by rw [h6, h3]⟩
  | iterateNumericForLoop step =>
    simp only [create_block_map_step] at hs
    cases hs
    obtain ⟨h1, h2, h3⟩ := orInsertNew_invariants st (i + step - 131070) h
    obtain ⟨h4, h5, h6⟩ := orInsertNew_invariants _ (i + 1) h1
    exact ⟨h4, by rw [h5, h2], by rw [h6, h3]⟩
  | prepareNumericForLoop step =>
    simp only [create_block_map_step] at hs
    cases hs
    obtain ⟨h1, h2, h3⟩ := orInsertNew_invariants st (i + step - 131070) h
    obtain ⟨h4, h5, h6⟩ := orInsertNew_invariants _ (i + 1) h1
    exact ⟨h4, by rw [h5, h2], by rw [h6, h3]⟩
  | move d s =>
    simp only [create_block_map_step] at hs
    cases hs
    exact ⟨h, rfl, rfl⟩
  | loadConstant d s =>
    simp only [create_block_map_step] at hs
    cases hs
    exact ⟨h, rfl, rfl⟩
  | ret vs vr =>
    simp only [create_block_map_step] at hs
    cases hs
    exact orInsertNew_invariants st _ h
  | getUpvalue d u =>
    simp only [create_block_map_step] at hs
    cases hs
    exact ⟨h, rfl, rfl⟩

lemma cbmGo_invariants (code : List Instruction) :
    ∀ (st st' : LifterState) (j : Nat), cbmGo st j code = some st' →
    allAstsEmpty st.function →
    allAstsEmpty st'.function ∧
      st'.function.counter = st.function.counter ∧
      st'.locals = st.locals := by
  induction code with
  | nil =>
    intro st st' j hgo h
    simp only [cbmGo] at hgo
    cases hgo
    exact ⟨h, rfl, rfl⟩
  | cons insn rest ih =>
    intro st st' j hgo h
    unfold cbmGo at hgo
    cases hs : create_block_map_step st j insn with
    | none => rw [hs] at hgo; simp at hgo
    | some st1 =>
      rw [hs] at hgo
      obtain ⟨h1, h2, h3⟩ := cbm_step_invariants st st1 j insn hs h
      obtain ⟨h4, h5, h6⟩ := ih st1 st' (j + 1) hgo h1
      exact ⟨h4, by rw [h5, h2], by rw [h6, h3]⟩

lemma alloc_step_spec (bc : BytecodeFunction) (st : LifterState) (i : Nat) :
    (alloc_step bc st i).function.counter = st.function.counter + 1 ∧
    (alloc_step bc st i).function.blocks = st.function.blocks ∧
    (alloc_step bc st i).locals =
      assocInsert st.locals i ⟨st.function.counter, none⟩ := by
  by_cases h : i < bc.number_of_parameters <;>
    simp [alloc_step, CFunction.allocate, h]

lemma alloc_fold_spec (bc : BytecodeFunction) (is : List Nat) :
    ∀ st : LifterState,
    (∀ r l, lookupA st.locals r = some l →
      l.name = none ∧ l.id < st.function.counter) →
    (is.foldl (alloc_step bc) st).function.counter =
        st.function.counter + is.length ∧
      (is.foldl (alloc_step bc) st).function.blocks = st.function.blocks ∧
      ∀ r l, lookupA (is.foldl (alloc_step bc) st).locals r = some l →
        l.name = none ∧
          l.id < (is.foldl (alloc_step bc) st).function.counter := by
  induction is with
  | nil =>
    intro st h
    exact ⟨rfl, rfl, h⟩
  | cons i t ih =>
    intro st h
    simp only [List.foldl_cons, List.length_cons]
    obtain ⟨hs1, hs2, hs3⟩ := alloc_step_spec bc st i
    have hlocals : ∀ r l, lookupA (alloc_step bc st i).locals r = some l →
        l.name = none ∧ l.id < (alloc_step bc st i).function.counter := by
      intro r l hl
      rw [hs3, lookupA_assocInsert] at hl
      rw [hs1]
      by_cases hr : r = i
      · rw [if_pos hr] at hl
        cases hl
        exact ⟨rfl, Nat.lt_succ_self _⟩
      · rw [if_neg hr] at hl
        obtain ⟨hn, hb⟩ := h r l hl
        exact ⟨hn, by omega⟩
    obtain ⟨h1, h2, h3⟩ := ih (alloc_step bc st i) hlocals
    refine ⟨by rw [h1, hs1]; omega, by rw [h2, hs2], h3⟩

lemma lookupAll_names (locals : List (Nat × LLocal))
    (hloc : ∀ r l, lookupA locals r = some l → l.name = none) :
    ∀ (vs : List Nat) (ls : List LLocal), lookupAll locals vs = some ls →
      ∀ l ∈ ls, l.name = none := by
  intro vs
  induction vs with
  | nil =>
    intro ls h l hl
    simp only [lookupAll, Option.some.injEq] at h
    subst h
    simp at hl
  | cons v t ih =>
    intro ls h l hl
    unfold lookupAll at h
    cases h1 : lookupA locals v with
    | none => rw [h1] at h; simp at h
    | some l1 =>
      rw [h1] at h
      cases h2 : lookupAll locals t with
      | none => rw [h2] at h; simp at h
      | some ls1 =>
        rw [h2] at h
        simp only [Option.some.injEq] at h
        subst h
        rcases List.mem_cons.mp hl with rfl | hl2
        · exact hloc v l h1
        · exact ih ls1 h2 l hl2

lemma flatMap_rvNamed_unnamed (ls : List LLocal)
    (h : ∀ l ∈ ls, l.name = none) :
    (ls.map LRValue.local).flatMap rvNamedIds = [] := by
  induction ls with
  | nil => rfl
  | cons l t ih =>
    simp only [List.map_cons, List.flatMap_cons]
    rw [ih (fun q hq => h q (List.mem_cons_of_mem _ hq))]
    have := h l (by simp)
    simp [rvNamedIds, this]

lemma lig_spec (bc : BytecodeFunction) (locals : List (Nat × LLocal))
    (hloc : ∀ r l, lookupA locals r = some l → l.name = none)
    (instrs : List Instruction) :
    ∀ (acc : List Stmt) (c : Nat) (stmts : List Stmt) (c' : Nat),
    lift_instruction_go bc locals instrs acc c = some (stmts, c') →
    c ≤ c' ∧ ∃ newIds, listNamedIds stmts = listNamedIds acc ++ newIds ∧
      newIds.Nodup ∧ ∀ id ∈ newIds, c ≤ id ∧ id < c' := by
  induction instrs with
  | nil =>
    intro acc c stmts c' h
    simp only [lift_instruction_go, Option.some.injEq, Prod.mk.injEq] at h
    obtain ⟨rfl, rfl⟩ := h
    exact ⟨Nat.le_refl c, [], by simp, List.nodup_nil, by simp⟩
  | cons insn rest ih =>
    intro acc c stmts c' h
    cases insn with
    | move d s =>
      simp only [lift_instruction_go] at h
      split at h
      · rename_i ld ls h1 h2
        obtain ⟨hc, newIds, heq, hnd, hb⟩ := ih _ c stmts c' h
        refine ⟨hc, newIds, ?_, hnd, hb⟩
        rw [heq, listNamedIds_append]
        have := hloc s ls h2
        simp [listNamedIds, stmtNamedIds, rvNamedIds, this]
      · simp at h
    | loadBoolean d v skip =>
      simp only [lift_instruction_go] at h
      split at h
      · obtain ⟨hc, newIds, heq, hnd, hb⟩ := ih _ c stmts c' h
        refine ⟨hc, newIds, ?_, hnd, hb⟩
        rw [heq, listNamedIds_append]
        simp [listNamedIds, stmtNamedIds, rvNamedIds]
      · simp at h
    | loadConstant d k =>
      simp only [lift_instruction_go] at h
      split at h
      · obtain ⟨hc, newIds, heq, hnd, hb⟩ := ih _ c stmts c' h
        refine ⟨hc, newIds, ?_, hnd, hb⟩
        rw [heq, listNamedIds_append]
        simp [listNamedIds, stmtNamedIds, rvNamedIds]
      · simp at h
    | test v cmp =>
      simp only [lift_instruction_go] at h
      split at h
      · rename_i lv h1
        obtain ⟨hc, newIds, heq, hnd, hb⟩ := ih _ c stmts c' h
        refine ⟨hc, newIds, ?_, hnd, hb⟩
        rw [heq, listNamedIds_append]
        have := hloc v lv h1
        cases cmp <;> simp [listNamedIds, stmtNamedIds, rvNamedIds, this]
      · simp at h
    | jump step =>
      simp only [lift_instruction_go] at h
      exact ih _ c stmts c' h
    | ret values vr =>
      simp only [lift_instruction_go] at h
      split at h
      · rename_i ls h1
        simp only [Option.some.injEq, Prod.mk.injEq] at h
        obtain ⟨rfl, rfl⟩ := h
        refine ⟨Nat.le_refl c, [], ?_, List.nodup_nil, by simp⟩
        rw [listNamedIds_append]
        have hnames := lookupAll_names locals hloc values ls h1
        simp [listNamedIds, stmtNamedIds, flatMap_rvNamed_unnamed ls hnames]
      · simp at h
    | getUpvalue d u =>
      simp only [lift_instruction_go] at h
      split at h
      · rename_i ld name h1 h2
        obtain ⟨hc, newIds, heq, hnd, hb⟩ := ih _ (c + 1) stmts c' h
        refine ⟨by omega, c :: newIds, ?_, ?_, ?_⟩
        · rw [heq, listNamedIds_append]
          simp [listNamedIds, stmtNamedIds, rvNamedIds]
        · refine List.nodup_cons.mpr ⟨?_, hnd⟩
          intro hmem
          have := (hb c hmem).1
          omega
        · intro id hid
          rcases List.mem_cons.mp hid with rfl | hid2
          · exact ⟨Nat.le_refl id, by omega⟩
          · obtain ⟨ha, hb2⟩ := hb id hid2
            exact ⟨by omega, hb2⟩
      · simp at h
    | setList t n b =>
      simp only [lift_instruction_go] at h
      simp at h
    | prepareNumericForLoop step =>
      simp only [lift_instruction_go] at h
      obtain ⟨hc, newIds, heq, hnd, hb⟩ := ih _ c stmts c' h
      refine ⟨hc, newIds, ?_, hnd, hb⟩
      rw [heq, listNamedIds_append]
      simp [listNamedIds, stmtNamedIds]
    | iterateNumericForLoop step =>
      simp only [lift_instruction_go] at h
      obtain ⟨hc, newIds, heq, hnd, hb⟩ := ih _ c stmts c' h
      refine ⟨hc, newIds, ?_, hnd, hb⟩
      rw [heq, listNamedIds_append]
      simp [listNamedIds, stmtNamedIds]

lemma flatNamed_modify_extend (l : List (Nat × CBlock)) (node : Nat)
    (stmts : List Stmt) :
    ∃ pre mid suf, (l.flatMap fun nb => blockNamedIds nb.2) = pre ++ suf ∧
      ((modifyA l node fun b => { b with ast := b.ast ++ stmts }).flatMap
        fun nb => blockNamedIds nb.2) = pre ++ (mid ++ suf) ∧
      (mid = listNamedIds stmts ∨ mid = []) := by
  induction l with
  | nil => exact ⟨[], [], [], rfl, rfl, Or.inr rfl⟩
  | cons q t ih =>
    obtain ⟨k, b⟩ := q
    by_cases hk : k = node
    · refine ⟨blockNamedIds b, listNamedIds stmts,
        t.flatMap fun nb => blockNamedIds nb.2, rfl, ?_, Or.inl rfl⟩
      simp only [modifyA, if_pos hk, List.flatMap_cons]
      show blockNamedIds { b with ast := b.ast ++ stmts } ++ _ = _
      rw [show blockNamedIds { b with ast := b.ast ++ stmts } =
        blockNamedIds b ++ listNamedIds stmts from listNamedIds_append b.ast stmts]
      simp [List.append_assoc]
    · obtain ⟨pre, mid, suf, h1, h2, h3⟩ := ih
      refine ⟨blockNamedIds b ++ pre, mid, suf, ?_, ?_, h3⟩
      · simp only [List.flatMap_cons, h1, List.append_assoc]
      · simp only [modifyA, if_neg hk, List.flatMap_cons, h2, List.append_assoc]

lemma nodup_insert_middle (pre mid suf : List Nat)
    (h1 : (pre ++ suf).Nodup) (h2 : mid.Nodup)
    (hd : ∀ x ∈ mid, x ∉ pre ++ suf) : (pre ++ (mid ++ suf)).Nodup := by
  rw [List.nodup_append] at h1 ⊢
  obtain ⟨hpre, hsuf, hdis⟩ := h1
  refine ⟨hpre, ?_, ?_⟩
  · rw [List.nodup_append]
    refine ⟨h2, hsuf, ?_⟩
    intro x hx
    have := hd x hx
    simp only [List.mem_append, not_or] at this
    exact this.2
  · intro x hx hmem
    rcases List.mem_append.mp hmem with hm | hs
    · exact hd x hm (List.mem_append.mpr (Or.inl hx))
    · exact hdis hx hs

lemma counter_withCounter_extend (f : CFunction) (c node : Nat)
    (stmts : List Stmt) :
    ((f.withCounter c).extend_block node stmts).counter = c := rfl

lemma fnNamed_set_term (f : CFunction) (n : Nat) (t : Option CTerminator) :
    fnNamedIds (f.set_block_terminator n t) = fnNamedIds f := by
  unfold fnNamedIds CFunction.set_block_terminator
  show ((modifyA f.blocks n _).flatMap fun nb => blockNamedIds nb.2) = _
  induction f.blocks with
  | nil => rfl
  | cons q t2 ih =>
    obtain ⟨k, b⟩ := q
    by_cases hk : k = n
    · simp only [modifyA, if_pos hk, List.flatMap_cons]
      rfl
    · simp only [modifyA, if_neg hk, List.flatMap_cons, ih]

lemma invL_set_term (B : Nat) (f : CFunction)
    (locals : List (Nat × LLocal)) (n : Nat) (t : Option CTerminator)
    (h : InvL B f locals) : InvL B (f.set_block_terminator n t) locals := by
  obtain ⟨h1, h2, h3, h4⟩ := h
  rw [InvL, fnNamed_set_term]
  exact ⟨h1, h2, h3, h4⟩

lemma inv_core (bc : BytecodeFunction) (B : Nat) (st : LifterState)
    (p : List Stmt × Nat) (node a b : Nat)
    (hInv : InvL B st.function st.locals)
    (hli : lift_instruction bc st.locals st.function.counter a b = some p) :
    InvL B ((st.function.withCounter p.2).extend_block node p.1)
      st.locals := by
  obtain ⟨hnd, hbound, hBc, hloc⟩ := hInv
  have hli' : lift_instruction_go bc st.locals
      ((bc.code.drop a).take (b + 1 - a)) [] st.function.counter =
      some (p.1, p.2) := hli
  obtain ⟨hc, newIds, heq, hndnew, hbnew⟩ :=
    lig_spec bc st.locals (fun r l hl => (hloc r l hl).1) _ []
      st.function.counter p.1 p.2 hli'
  have heq' : listNamedIds p.1 = newIds := by simpa [listNamedIds] using heq
  obtain ⟨pre, mid, suf, hps, hmod, hmid⟩ :=
    flatNamed_modify_extend st.function.blocks node p.1
  have hext : fnNamedIds ((st.function.withCounter p.2).extend_block node p.1) =
      pre ++ (mid ++ suf) := hmod
  have hfn : fnNamedIds st.function = pre ++ suf := hps
  have hmidsub : ∀ x ∈ mid, x ∈ newIds := by
    intro x hx
    rcases hmid with rfl | rfl
    · rw [← heq']; exact hx
    · simp at hx
  refine ⟨?_, ?_, ?_, hloc⟩
  · rw [hext]
    refine nodup_insert_middle pre mid suf (by rw [← hfn]; exact hnd) ?_ ?_
    · rcases hmid with rfl | rfl
      · rw [heq']; exact hndnew
      · exact List.nodup_nil
    · intro x hx hmem
      have hx1 := (hbnew x (hmidsub x hx)).1
      have hx2 := (hbound x (by rw [hfn]; exact hmem)).2
      omega
  · intro id hid
    rw [hext] at hid
    rw [counter_withCounter_extend]
    rcases List.mem_append.mp hid with hid1 | hid2
    · have := hbound id (by rw [hfn]; exact List.mem_append.mpr (Or.inl hid1))
      exact ⟨this.1, by omega⟩
    · rcases List.mem_append.mp hid2 with hid3 | hid4
      · have := hbnew id (hmidsub id hid3)
        exact ⟨by omega, this.2⟩
      · have := hbound id (by rw [hfn]; exact List.mem_append.mpr (Or.inr hid4))
        exact ⟨this.1, by omega⟩
  · rw [counter_withCounter_extend]
    omega

lemma lbr_inv (bc : BytecodeFunction) (B : Nat) (st st' : LifterState)
    (r : Nat × Nat) (hInv : InvL B st.function st.locals)
    (h : lift_block_range bc st r = some st') :
    InvL B st'.function st'.locals ∧ st'.locals = st.locals := by
  unfold lift_block_range at h
  cases hli : lift_instruction bc st.locals st.function.counter r.1 r.2 with
  | none => rw [hli] at h; simp at h
  | some p =>
    rw [hli] at h
    cases hn : lookupA st.nodes r.1 with
    | none => simp only [hn] at h; simp at h
    | some node =>
      simp only [hn] at h
      have hcore := inv_core bc B st p node r.1 r.2 hInv hli
      cases hblk : st.function.block node with
      | none => simp only [hblk] at h; simp at h
      | some b0 =>
        simp only [hblk] at h
        cases hg : bc.code.get? r.2 with
        | none => simp only [hg] at h; simp at h
        | some lastInsn =>
          simp only [hg] at h
          split at h
          all_goals try split at h
          all_goals try split at h
          all_goals try split at h
          all_goals try split at h
          all_goals
            first
            | (subst h;
               first
               | exact ⟨hcore, rfl⟩
               | exact ⟨invL_set_term _ _ _ _ _ hcore, rfl⟩)
            | (injection h with h2; subst h2;
               first
               | exact ⟨hcore, rfl⟩
               | exact ⟨invL_set_term _ _ _ _ _ hcore, rfl⟩)
            | simp at h

lemma lift_blocks_inv (bc : BytecodeFunction) (B : Nat)
    (ranges : List (Nat × Nat)) :
    ∀ st st' : LifterState,
    List.foldlM (lift_block_range bc) st ranges = some st' →
    InvL B st.function st.locals →
    InvL B st'.function st'.locals ∧ st'.locals = st.locals := by
  induction ranges with
  | nil =>
    intro st st' h hInv
    simp only [List.foldlM_nil] at h
    cases h
    exact ⟨hInv, rfl⟩
  | cons r rs ih =>
    intro st st' h hInv
    simp only [List.foldlM_cons] at h
    cases hr : lift_block_range bc st r with
    | none => rw [hr] at h; simp at h
    | some st1 =>
      rw [hr] at h
      obtain ⟨hInv1, hloc1⟩ := lbr_inv bc B st st1 r hInv hr
      have hInv1' : InvL B st1.function st1.locals := hInv1
      have h' : List.foldlM (lift_block_range bc) st1 rs = some st' := h
      obtain ⟨hInv2, hloc2⟩ := ih st1 st' h' hInv1'
      exact ⟨hInv2, by rw [hloc2, hloc1]⟩

/-- C10: after the lifter's translation phases, the named locals (the
`RcLocal`s freshly constructed by the `GetUpvalue` arm) are pairwise
distinct identities — even for two `GetUpvalue`s of the same upvalue
index — and none of them coincides with any register-allocated
local. -/
theorem c10_upvalue_locals_fresh (bc : BytecodeFunction) (st : LifterState)
    (h : liftPre bc = some st) :
    (fnNamedIds st.function).Nodup ∧
      ∀ id ∈ fnNamedIds st.function, ∀ r l,
        lookupA st.locals r = some l → id ≠ l.id := by
  unfold liftPre at h
  cases hc : create_block_map bc ⟨CFunction.default0, [], [], []⟩ with
  | none => rw [hc] at h; simp at h
  | some st1 =>
    rw [hc] at h
    unfold create_block_map at hc
    obtain ⟨he, hcnt, hlocs⟩ := cbmGo_invariants bc.code _ st1 0 hc
      (allAstsEmpty_new_block _ (by intro p hp; simp [CFunction.default0] at hp))
    obtain ⟨ha1, ha2, ha3⟩ :=
      alloc_fold_spec bc (List.range bc.maximum_stack_size) st1
        (by rw [hlocs]; intro r l hl; simp [lookupA] at hl)
    have hallocEmpty : allAstsEmpty (allocate_locals bc st1).function := by
      intro q hq
      rw [show (allocate_locals bc st1).function.blocks = st1.function.blocks
        from ha2] at hq
      exact he q hq
    have hfn0 : fnNamedIds (allocate_locals bc st1).function = [] :=
      fnNamedIds_of_empty _ hallocEmpty
    have hInv : InvL ((allocate_locals bc st1).function.counter)
        (allocate_locals bc st1).function (allocate_locals bc st1).locals := by
      refine ⟨by rw [hfn0]; exact List.nodup_nil, ?_, Nat.le_refl _, ha3⟩
      intro id hid
      rw [hfn0] at hid
      simp at hid
    have hfold : List.foldlM (lift_block_range bc) (allocate_locals bc st1)
        (code_ranges bc (allocate_locals bc st1)) = some st := h
    obtain ⟨hInv', hlocseq⟩ := lift_blocks_inv bc _ _ _ _ hfold hInv
    refine ⟨hInv'.1, ?_⟩
    intro id hid r l hl
    have h1 := (hInv'.2.1 id hid).1
    have h2 := (hInv'.2.2.2 r l hl).2
    omega

/-- C10 witness: on `bcUp` the two `GetUpvalue`s of upvalue 0 read
distinct fresh locals, distinct from both register locals. -/
theorem c10_upvalue_locals_fresh_witness :
    liftPre bcUp = some stUp ∧
      ((fnNamedIds stUp.function).Nodup ∧
        ∀ id ∈ fnNamedIds stUp.function, ∀ r l,
          lookupA stUp.locals r = some l → id ≠ l.id) :=
  ⟨rfl, c10_upvalue_locals_fresh bcUp stUp rfl⟩

end L51
